import Mathlib

set_option maxRecDepth 20000

/-!
Verification of the `libks_ini` format-preserving INI engine.

Source text is modelled as a list of characters (`Str`).  Rust byte offsets
become character offsets; this is faithful because the parser only searches
for ASCII characters (`\r`, `\n`, `=`, `[`, `]`, `;`, space), which in UTF-8
never occur inside a multi-byte sequence, so byte positions found by the
scanner always fall on character boundaries and the two views strSlice
identically.
-/

abbrev Str := List Char

/-- `strSlice s a b` is the half-open range `s[a..b]`, the model of Rust's
string slicing used by `Span::of`. -/
def strSlice (s : Str) (a b : Nat) : Str := (s.drop a).take (b - a)

/-! ## parse/trim.rs -/

/-- `trim::trimmed_range_start`: index of the first non-space character,
or the length when the string is all spaces. -/
def trimmed_range_start : Str → Nat
  | [] => 0
  | c :: cs => if c = ' ' then trimmed_range_start cs + 1 else 0

/-- `trim::trimmed_range_end`: one past the index of the last non-space
character, or `0` when the string is all spaces. -/
def trimmed_range_end : Str → Nat
  | [] => 0
  | c :: cs =>
    let e := trimmed_range_end cs
    if e = 0 then (if c = ' ' then 0 else 1) else e + 1

/-- `trim::trimmed_range`. -/
def trimmed_range (s : Str) : Nat × Nat :=
  let start := trimmed_range_start s
  if start = s.length then (s.length, s.length)
  else (start, trimmed_range_end s)

/-! ## parse/line.rs -/

/-- First index whose character satisfies `p` (the model of `memchr`). -/
def find_char (p : Char → Bool) : Str → Option Nat
  | [] => none
  | c :: cs => if p c then some 0 else (find_char p cs).map (fun n => n + 1)

def is_term (c : Char) : Bool := c == '\r' || c == '\n'

def is_term_or_eq (c : Char) : Bool := c == '\r' || c == '\n' || c == '='

structure Line where
  start_trimmed : Nat
  end_trimmed : Nat
  eq : Option Nat
  line_end : Nat
  start_next : Nat
deriving DecidableEq, Repr

/-- The `memchr3`/`memchr2` scan of `line::next_line`: the line's end, its
terminator (if any) and the position of a `=` occurring before it. -/
def scan_line (s : Str) : Nat × Option Char × Option Nat :=
  match find_char is_term_or_eq s with
  | some i =>
    if s.getD i ' ' = '=' then
      match find_char is_term (s.drop (i + 1)) with
      | some j => (i + 1 + j, some ((s.drop (i + 1)).getD j ' '), some i)
      | none => (s.length, none, some i)
    else (i, some (s.getD i ' '), none)
  | none => (s.length, none, none)

/-- The `start_next` computation of `line::next_line` (CRLF handling). -/
def line_start_next (s : Str) (e : Nat) (le : Option Char) : Nat :=
  if le = some '\r' ∧ e + 1 < s.length ∧ s.getD (e + 1) ' ' = '\n'
  then min (e + 2) s.length
  else min (e + 1) s.length

/-- `line::next_line`, on the remaining suffix of the source. -/
def next_line (s : Str) : Option Line :=
  match s with
  | [] => none
  | _ :: _ =>
    let ele := scan_line s
    let tr := trimmed_range (s.take ele.1)
    some ⟨tr.1, tr.2, ele.2.2, ele.1, line_start_next s ele.1 ele.2.1⟩

/-! ## span.rs, item/padding.rs, item/mod.rs -/

inductive Span where
  | Sliced (start stop : Nat)
  | Owned (text : Str)
deriving DecidableEq, Repr

/-- `Span::of`. -/
def Span.of (sp : Span) (source : Str) : Str :=
  match sp with
  | .Sliced a b => strSlice source a b
  | .Owned t => t

structure Padding where
  l : Span
  r : Span
deriving DecidableEq, Repr

structure Padding4 where
  a : Span
  b : Span
  c : Span
  d : Span
deriving DecidableEq, Repr

structure Prop' where
  key : Span
  value : Span
deriving DecidableEq, Repr

inductive Item where
  | Error (line : Span)
  | Section (key : Span) (pad : Padding)
  | Property (prop : Prop') (pad : Padding4)
  | Comment (content : Span) (pad : Padding)
  | Blank (line : Span)
deriving DecidableEq, Repr

/-- The `Display` impl of `SourcedItem`: the rendered text of one item. -/
def render_item (source : Str) : Item → Str
  | .Error sp => sp.of source
  | .Section key pad =>
    pad.l.of source ++ ['['] ++ key.of source ++ [']'] ++ pad.r.of source
  | .Property p pad =>
    pad.a.of source ++ p.key.of source ++ pad.b.of source ++ ['=']
      ++ pad.c.of source ++ p.value.of source ++ pad.d.of source
  | .Comment c pad =>
    pad.l.of source ++ [';'] ++ c.of source ++ pad.r.of source
  | .Blank sp => sp.of source

/-! ## parse/mod.rs : `Parser::next` -/

/-- The classification step of `Parser::next` for the line starting at
absolute offset `pos`, where `l` is `next_line` of the suffix at `pos`.
All spans are produced in absolute coordinates, exactly as the parser's
`offset(start_line)` does. -/
def classify_at (source : Str) (pos : Nat) (l : Line) : Item :=
  let st := pos + l.start_trimmed
  let et := pos + l.end_trimmed
  let sn := pos + l.start_next
  let linesp := Span.Sliced pos sn
  let trimmed := strSlice source st et
  let pad : Padding := ⟨Span.Sliced pos st, Span.Sliced et sn⟩
  match trimmed.head? with
  | some '[' =>
    match trimmed.getLast? with
    | some ']' => Item.Section (Span.Sliced (st + 1) (et - 1)) pad
    | _ => Item.Error linesp
  | some ';' => Item.Comment (Span.Sliced (st + 1) et) pad
  | some _ =>
    match l.eq with
    | some eqr =>
      let eqa := pos + eqr
      let end_key := st + trimmed_range_end (strSlice source st eqa)
      let start_value := (eqa + 1) + trimmed_range_start (strSlice source (eqa + 1) et)
      Item.Property ⟨Span.Sliced st end_key, Span.Sliced start_value et⟩
        ⟨Span.Sliced pos st, Span.Sliced end_key eqa,
         Span.Sliced (eqa + 1) start_value, Span.Sliced et sn⟩
    | none => Item.Error linesp
  | none => Item.Blank linesp

/-- The iteration of `Parser` as a fuelled loop; each step consumes at
least one character, so `source.length + 1` units of fuel always suffice. -/
def parse_loop (source : Str) : Nat → Nat → List Item
  | 0, _ => []
  | fuel + 1, pos =>
    match next_line (source.drop pos) with
    | none => []
    | some l => classify_at source pos l :: parse_loop source fuel (pos + l.start_next)

/-- The full item stream produced by `Parser::new(source)`. -/
def parse_items (source : Str) : List Item := parse_loop source (source.length + 1) 0

/-! ## ASCII case folding (`eq_ignore_ascii_case`, `to_ascii_lowercase`) -/

def ascii_lower_char (c : Char) : Char :=
  if 'A' ≤ c ∧ c ≤ 'Z' then Char.ofNat (c.toNat + 32) else c

def ascii_lower (s : Str) : Str := s.map ascii_lower_char

def eq_ignore_ascii_case (a b : Str) : Bool := decide (ascii_lower a = ascii_lower b)

/-! ## section/concrete_section.rs -/

structure ConcreteSection where
  items : List Item
deriving DecidableEq, Repr

instance : Inhabited ConcreteSection := ⟨⟨[]⟩⟩

/-- `ConcreteSection::key`.  The Rust method panics on the global section
(no `Section` head item); the model returns `[]` there, and every key-indexed
section carries a `Section` head (`headers_ok`). -/
def ConcreteSection.key (src : Str) (s : ConcreteSection) : Str :=
  match s.items with
  | Item.Section k _ :: _ => k.of src
  | _ => []

/-- `ConcreteSection::set_key`: relabels the header span, keeping padding. -/
def ConcreteSection.set_key (to_key : Str) (s : ConcreteSection) : ConcreteSection :=
  match s.items with
  | Item.Section _ p :: rest => ⟨Item.Section (Span.Owned to_key) p :: rest⟩
  | _ => s

/-- `ConcreteSection::find_prop`: reverse scan for the last `Property`
whose key matches ASCII-case-insensitively, expressed by structural
recursion (later items take precedence). -/
def find_prop (src k : Str) : List Item → Option Prop'
  | [] => none
  | it :: rest =>
    match find_prop src k rest with
    | some p => some p
    | none =>
      match it with
      | Item.Property p _ =>
        if eq_ignore_ascii_case (p.key.of src) k then some p else none
      | _ => none

def ConcreteSection.has (src k : Str) (s : ConcreteSection) : Bool :=
  (find_prop src k s.items).isSome

def ConcreteSection.get (src k : Str) (s : ConcreteSection) : Option Str :=
  (find_prop src k s.items).map (fun p => p.value.of src)

/-- `find_prop_mut` followed by `kvp.value = value.into()`: replaces the
value span of the last matching property, or `none` when no key matches. -/
def set_last (src k v : Str) : List Item → Option (List Item)
  | [] => none
  | it :: rest =>
    match set_last src k v rest with
    | some rest' => some (it :: rest')
    | none =>
      match it with
      | Item.Property p pad =>
        if eq_ignore_ascii_case (p.key.of src) k
        then some (Item.Property ⟨p.key, Span.Owned v⟩ pad :: rest)
        else none
      | _ => none

/-- The fresh property appended by `ConcreteSection::set` on a missing key. -/
def default_prop (k v : Str) : Item :=
  Item.Property ⟨Span.Owned k, Span.Owned v⟩
    ⟨Span.Owned [], Span.Owned [], Span.Owned [], Span.Owned ['\n']⟩

/-- `ConcreteSection::set`. -/
def ConcreteSection.set (src k v : Str) (s : ConcreteSection) : ConcreteSection :=
  match set_last src k v s.items with
  | some items' => ⟨items'⟩
  | none => ⟨s.items ++ [default_prop k v]⟩

/-- `ConcreteSection::replace`: like `set` but hands the value back instead
of appending when no key matches. -/
def ConcreteSection.replace (src k v : Str) (s : ConcreteSection) :
    Option Str × ConcreteSection :=
  match set_last src k v s.items with
  | some items' => (none, ⟨items'⟩)
  | none => (some v, s)

/-- `ConcreteSection::remove`, translated exactly as written in the source:
the filter keeps `Property` items whose key matches and keeps every
non-`Property` item (there is no negation on the key comparison). -/
def ConcreteSection.remove (src k : Str) (s : ConcreteSection) : ConcreteSection :=
  ⟨s.items.filter (fun it =>
    match it with
    | Item.Property p _ => eq_ignore_ascii_case (p.key.of src) k
    | _ => true)⟩

/-- `ConcreteSection::rename`. -/
def ConcreteSection.rename (src from_k to_k : Str) (s : ConcreteSection) :
    ConcreteSection :=
  let s1 := s.remove src to_k
  ⟨s1.items.map (fun it =>
    match it with
    | Item.Property p pad =>
      if eq_ignore_ascii_case (p.key.of src) from_k
      then Item.Property ⟨Span.Owned to_k, p.value⟩ pad
      else Item.Property p pad
    | other => other)⟩

/-- The `Display` impl of `ConcreteSection`. -/
def ConcreteSection.to_text (src : Str) (s : ConcreteSection) : Str :=
  (s.items.map (render_item src)).flatten

/-! ## section/virtual_section.rs

A `VirtualSectionMut` holds one `&mut` per group member, obtained from the
backing `sections` array at the group's index list; mutating through it is
read-modify-write at those indices, which is how it is modelled here. -/

def secAt (secs : List ConcreteSection) (i : Nat) : ConcreteSection :=
  secs.getD i ⟨[]⟩

/-- `VirtualSection::get` / `VirtualSectionMut::get`: first hit scanning
the group most-recent member first. -/
def find_some_idx (f : Nat → Option Str) : List Nat → Option Str
  | [] => none
  | i :: rest =>
    match f i with
    | some v => some v
    | none => find_some_idx f rest

def v_has (src : Str) (secs : List ConcreteSection) (idxs : List Nat) (k : Str) : Bool :=
  idxs.reverse.any (fun i => (secAt secs i).has src k)

def v_get (src : Str) (secs : List ConcreteSection) (idxs : List Nat) (k : Str) : Option Str :=
  find_some_idx (fun i => (secAt secs i).get src k) idxs.reverse

/-- The probe loop of `VirtualSectionMut::set`: `replace` against each
index in turn; a member that reports a match keeps the value and the scan
stops, otherwise the fallback member `first` gets a plain `set`. -/
def v_set_go (src k v : Str) (first : Option Nat) :
    List ConcreteSection → List Nat → List ConcreteSection
  | secs, [] =>
    match first with
    | some i0 => secs.set i0 ((secAt secs i0).set src k v)
    | none => secs
  | secs, i :: rest =>
    match (secAt secs i).replace src k v with
    | (none, sec') => secs.set i sec'
    | (some _, _) => v_set_go src k v first secs rest

/-- `VirtualSectionMut::set`: members except the first, most recent first. -/
def v_set (src k v : Str) (secs : List ConcreteSection) (idxs : List Nat) :
    List ConcreteSection :=
  v_set_go src k v idxs.head? secs (idxs.drop 1).reverse

/-- `VirtualSectionMut::remove`: applied to every member. -/
def v_remove (src k : Str) (secs : List ConcreteSection) (idxs : List Nat) :
    List ConcreteSection :=
  idxs.foldl (fun ss i => ss.set i ((secAt ss i).remove src k)) secs

/-- `VirtualSectionMut::rename`: applied to every member. -/
def v_rename (src from_k to_k : Str) (secs : List ConcreteSection) (idxs : List Nat) :
    List ConcreteSection :=
  idxs.foldl (fun ss i => ss.set i ((secAt ss i).rename src from_k to_k)) secs

/-- `VirtualSectionMut::set_key`: applied to every member. -/
def v_set_key (to_key : Str) (secs : List ConcreteSection) (idxs : List Nat) :
    List ConcreteSection :=
  idxs.foldl (fun ss i => ss.set i ((secAt ss i).set_key to_key)) secs

/-! ## ini.rs : the section index (a `HashMap<String, Vec<usize>>`)

The map is modelled as an association list with unique keys; all operations
below are extensionally the `HashMap` ones. -/

abbrev Index := List (Str × List Nat)

def index_get (idx : Index) (k : Str) : Option (List Nat) :=
  match idx with
  | [] => none
  | (k', v) :: rest => if k' = k then some v else index_get rest k

/-- `entry(key).and_modify(push i).or_insert(vec![i])`. -/
def index_add (idx : Index) (k : Str) (i : Nat) : Index :=
  match idx with
  | [] => [(k, [i])]
  | (k', v) :: rest =>
    if k' = k then (k', v ++ [i]) :: rest else (k', v) :: index_add rest k i

/-- `HashMap::insert`. -/
def index_insert (idx : Index) (k : Str) (v : List Nat) : Index :=
  match idx with
  | [] => [(k, v)]
  | (k', v') :: rest =>
    if k' = k then (k, v) :: rest else (k', v') :: index_insert rest k v

/-- `HashMap::remove`, returning the removed value. -/
def index_remove (idx : Index) (k : Str) : Option (List Nat) × Index :=
  (index_get idx k, idx.filter (fun e => ¬ e.1 = k))

structure Ini where
  source : Str
  global_section : ConcreteSection
  sections : List ConcreteSection
  section_index : Index
deriving DecidableEq, Repr

/-- `Ini::build_section_index`, iterating `sections.iter().enumerate()`. -/
def build_aux (src : Str) : List ConcreteSection → Nat → Index → Index
  | [], _, idx => idx
  | sec :: rest, i, idx => build_aux src rest (i + 1) (index_add idx (ascii_lower (sec.key src)) i)

def build_section_index (src : Str) (secs : List ConcreteSection) : Index :=
  build_aux src secs 0 []

/-- One step of the item loop in `Ini::new`: a `Section` item opens a new
section, every other item attaches to the innermost open section (or the
global one).  Sections are accumulated in reverse for structural recursion. -/
def part_step (acc : ConcreteSection × List ConcreteSection) (it : Item) :
    ConcreteSection × List ConcreteSection :=
  match it with
  | Item.Section k p => (acc.1, ⟨[Item.Section k p]⟩ :: acc.2)
  | it =>
    match acc.2 with
    | [] => (⟨acc.1.items ++ [it]⟩, [])
    | s :: ss => (acc.1, ⟨s.items ++ [it]⟩ :: ss)

/-- `Ini::new`. -/
def Ini.new (source : Str) : Ini :=
  let acc := (parse_items source).foldl part_step (⟨[]⟩, [])
  let sections := acc.2.reverse
  { source := source
    global_section := acc.1
    sections := sections
    section_index := build_section_index source sections }

def Ini.has_section (d : Ini) (k : Str) : Bool :=
  (index_get d.section_index (ascii_lower k)).isSome

/-- `Ini::get_in`: group positions scanned most-recent-to-least. -/
def Ini.get_in (d : Ini) (sk pk : Str) : Option Str :=
  match index_get d.section_index (ascii_lower sk) with
  | none => none
  | some idxs => find_some_idx (fun i => (secAt d.sections i).get d.source pk) idxs.reverse

/-- `Ini::has_in`, via the read view's `has`. -/
def Ini.has_in (d : Ini) (sk pk : Str) : Bool :=
  match index_get d.section_index (ascii_lower sk) with
  | none => false
  | some idxs => v_has d.source d.sections idxs pk

/-- `Ini::append_section`; the returned index list is the group the borrowed
`VirtualSectionMut` ranges over. -/
def Ini.append_section (d : Ini) (k : Str) : Ini × List Nat :=
  let lk := ascii_lower k
  match index_get d.section_index lk with
  | some idxs => (d, idxs)
  | none =>
    let header := Item.Section (Span.Owned k) ⟨Span.Owned [], Span.Owned ['\n']⟩
    let sections := d.sections ++ [⟨[header]⟩]
    let idxs := [sections.length - 1]
    ({ d with sections := sections, section_index := index_insert d.section_index lk idxs },
     idxs)

/-- `Ini::remove_section`. -/
def Ini.remove_section (d : Ini) (k : Str) : Ini :=
  if d.has_section k then
    let sections := d.sections.filter (fun sec => ! eq_ignore_ascii_case (sec.key d.source) k)
    { d with sections := sections, section_index := build_section_index d.source sections }
  else d

/-- `Ini::rename_section`. -/
def Ini.rename_section (d : Ini) (from_key to_key : Str) : Ini :=
  let lower_to := ascii_lower to_key
  let d1 := d.remove_section lower_to
  let lower_from := ascii_lower from_key
  match index_remove d1.section_index lower_from with
  | (some idxs, idx') =>
    { d1 with
      sections := v_set_key to_key d1.sections idxs
      section_index := index_insert idx' lower_to idxs }
  | (none, _) => d1

/-- `Ini::set_in`. -/
def Ini.set_in (d : Ini) (sk pk v : Str) : Ini :=
  let r := d.append_section sk
  { r.1 with sections := v_set r.1.source pk v r.1.sections r.2 }

/-- `Ini::remove_in`. -/
def Ini.remove_in (d : Ini) (sk pk : Str) : Ini :=
  match index_get d.section_index (ascii_lower sk) with
  | some idxs => { d with sections := v_remove d.source pk d.sections idxs }
  | none => d

/-- `Ini::rename_in`. -/
def Ini.rename_in (d : Ini) (sk from_k to_k : Str) : Ini :=
  match index_get d.section_index (ascii_lower sk) with
  | some idxs => { d with sections := v_rename d.source from_k to_k d.sections idxs }
  | none => d

/-- The `Display` impl of `Ini`: global section then every physical
section in original order. -/
def Ini.to_string (d : Ini) : Str :=
  d.global_section.to_text d.source
    ++ (d.sections.map (fun s => s.to_text d.source)).flatten

/-! ## ini.rs : `borrow_indices_mut`

The index-partitioning loop, with every potential panic made explicit:
`none` on `i - rest_starts_at` underflow or on an out-of-range
`split_at_mut`.  On success it returns the global position of each
reference handed out (`rest_starts_at + borrow_at`). -/

def borrow_go (rsa rlen : Nat) : List Nat → Option (List Nat)
  | [] => some []
  | i :: rest =>
    if i < rsa then none
    else
      let borrow_at := i - rsa
      let split_at := borrow_at + 1
      if rlen < split_at then none
      else (borrow_go (rsa + split_at) (rlen - split_at) rest).map
        (fun rs => (rsa + borrow_at) :: rs)

def borrow_indices_mut (len : Nat) (idxs : List Nat) : Option (List Nat) :=
  borrow_go 0 len idxs

/-! ## Specification-side helper definitions -/

/-- One step of a forward scan keeping the value of the latest matching
property. -/
def lmv_step (src pk : Str) (acc : Option Str) (it : Item) : Option Str :=
  match it with
  | Item.Property p _ =>
    if eq_ignore_ascii_case (p.key.of src) pk then some (p.value.of src) else acc
  | _ => acc

/-- The value of the last property in `items` whose key matches, scanning
forward and keeping the latest hit. -/
def last_matching_value (src pk : Str) (items : List Item) : Option Str :=
  items.foldl (lmv_step src pk) none

/-- The ascending list of positions (offset by `i`) of the sections whose
lowercased header key is `k`. -/
def positions_from (src : Str) : List ConcreteSection → Nat → Str → List Nat
  | [], _, _ => []
  | sec :: rest, i, k =>
    (if ascii_lower (sec.key src) = k then [i] else []) ++ positions_from src rest (i + 1) k

def opt_list (ps : List Nat) : Option (List Nat) :=
  if ps = [] then none else some ps

/-- The items already distributed by the `Ini::new` loop, in source order:
global items first, then the items of every opened section. -/
def part_flat (acc : ConcreteSection × List ConcreteSection) : List Item :=
  acc.1.items ++ (acc.2.reverse.map ConcreteSection.items).flatten

/-- A section that starts with a `Section` header item. -/
def has_header (sec : ConcreteSection) : Prop :=
  ∃ k p rest, sec.items = Item.Section k p :: rest

/-- Every key-indexed section starts with a `Section` header item. -/
def headers_ok (d : Ini) : Prop :=
  ∀ sec ∈ d.sections, has_header sec

/-- The section index is canonical: looking up any key yields exactly the
ascending positions of the sections carrying that lowercased header key. -/
def index_canon (d : Ini) : Prop :=
  ∀ k, index_get d.section_index k = opt_list (positions_from d.source d.sections 0 k)

def IniWF (d : Ini) : Prop := headers_ok d ∧ index_canon d

/-- Conversion from string literals for concrete test documents. -/
def str (s : String) : Str := s.toList

/-! # Lemmas -/

/-! ## Slicing -/

theorem strSlice_zero (s : Str) (n : Nat) : strSlice s 0 n = s.take n := by
  simp [strSlice]

theorem strSlice_nil (s : Str) {a b : Nat} (h : b ≤ a) : strSlice s a b = [] := by
  simp [strSlice, Nat.sub_eq_zero_of_le h]

theorem strSlice_append (s : Str) {a b c : Nat} (hab : a ≤ b) (hbc : b ≤ c) :
    strSlice s a b ++ strSlice s b c = strSlice s a c := by
  unfold strSlice
  have h1 : c - a = (b - a) + (c - b) := by omega
  rw [h1, List.take_add]
  congr 2
  rw [List.drop_drop]
  congr 1
  omega

theorem strSlice_drop (s : Str) (p a b : Nat) :
    strSlice (s.drop p) a b = strSlice s (p + a) (p + b) := by
  unfold strSlice
  rw [List.drop_drop]
  have h2 : p + b - (p + a) = b - a := by omega
  rw [h2]

theorem getD_drop (s : Str) (p j : Nat) (d : Char) :
    (s.drop p).getD j d = s.getD (p + j) d := by
  simp [List.getD, List.getElem?_drop]

theorem getD_take {s : Str} {e j : Nat} (h : j < e) (d : Char) :
    (s.take e).getD j d = s.getD j d := by
  simp [List.getD, List.getElem?_take, h]

theorem get?_of_getD {s : Str} {j : Nat} (h : j < s.length) (d : Char) :
    s.get? j = some (s.getD j d) := by
  simp [List.getD, List.getElem?_eq_getElem h, List.get?_eq_getElem?]

theorem getD_of_le {s : Str} {j : Nat} (h : s.length ≤ j) (d : Char) :
    s.getD j d = d := by
  simp [List.getD, List.getElem?_eq_none h]

theorem head?_drop' (s : Str) (n : Nat) : (s.drop n).head? = s.get? n := by
  induction s generalizing n with
  | nil => simp
  | cons c cs ih => cases n <;> simp [ih]

theorem strSlice_singleton {s : Str} {a : Nat} {c : Char} (h : s.get? a = some c) :
    strSlice s a (a + 1) = [c] := by
  unfold strSlice
  have h1 : a + 1 - a = 1 := by omega
  rw [h1, List.take_one, head?_drop' s a, h]
  rfl

theorem head?_strSlice (s : Str) {a b : Nat} (h : a < b) :
    (strSlice s a b).head? = s.get? a := by
  rw [← head?_drop' s a]
  unfold strSlice
  cases hd : s.drop a with
  | nil => simp
  | cons c cs =>
    obtain ⟨n, hn⟩ : ∃ n, b - a = n + 1 := ⟨b - a - 1, by omega⟩
    rw [hn]
    simp

theorem getLast?_strSlice (s : Str) {a b : Nat} (h1 : a < b) (h2 : b ≤ s.length) :
    (strSlice s a b).getLast? = s.get? (b - 1) := by
  have hb1 : b - 1 < s.length := by omega
  have hc : s.get? (b - 1) = some (s.getD (b - 1) ' ') := get?_of_getD hb1 ' '
  rw [hc]
  have hsing : strSlice s (b - 1) b = [s.getD (b - 1) ' '] := by
    have := strSlice_singleton hc
    have heq : b - 1 + 1 = b := by omega
    rwa [heq] at this
  have hsplit : strSlice s a b = strSlice s a (b - 1) ++ [s.getD (b - 1) ' '] := by
    rw [← hsing]
    exact (strSlice_append s (by omega) (by omega)).symm
  rw [hsplit, List.getLast?_concat]

theorem length_strSlice {s : Str} (a : Nat) {b : Nat} (h : b ≤ s.length) :
    (strSlice s a b).length = b - a := by
  simp [strSlice]
  omega

theorem strSlice_ne_nil {s : Str} {a b : Nat} (h : strSlice s a b ≠ []) :
    a < b ∧ a < s.length := by
  constructor
  · by_contra hc
    exact h (strSlice_nil s (by omega))
  · by_contra hc
    apply h
    unfold strSlice
    rw [List.drop_eq_nil_iff.2 (by omega)]
    simp

/-! ## Trimming -/

theorem trimmed_range_start_le (s : Str) : trimmed_range_start s ≤ s.length := by
  induction s with
  | nil => simp [trimmed_range_start]
  | cons c cs ih =>
    by_cases h : c = ' ' <;> simp [trimmed_range_start, h] <;> omega

theorem trimmed_range_start_spaces {s : Str} {j : Nat} (h : j < trimmed_range_start s) :
    s.getD j ' ' = ' ' := by
  induction s generalizing j with
  | nil => simp [trimmed_range_start] at h
  | cons c cs ih =>
    by_cases hc : c = ' '
    · cases j with
      | zero => simpa [hc]
      | succ j' =>
        simp only [trimmed_range_start, if_pos hc] at h
        simpa using ih (by omega)
    · simp [trimmed_range_start, hc] at h

theorem trimmed_range_start_min {s : Str} {j : Nat} (h : s.getD j ' ' ≠ ' ') :
    trimmed_range_start s ≤ j := by
  by_contra hc
  exact h (trimmed_range_start_spaces (by omega))

theorem trimmed_range_start_get {s : Str} (h : trimmed_range_start s < s.length) :
    s.getD (trimmed_range_start s) ' ' ≠ ' ' := by
  induction s with
  | nil => simp at h
  | cons c cs ih =>
    by_cases hc : c = ' '
    · simp only [trimmed_range_start, if_pos hc, List.length_cons] at h ⊢
      simpa using ih (by omega)
    · simp only [trimmed_range_start, if_neg hc]
      simpa using hc

theorem trimmed_range_end_le (s : Str) : trimmed_range_end s ≤ s.length := by
  induction s with
  | nil => simp [trimmed_range_end]
  | cons c cs ih =>
    simp only [trimmed_range_end, List.length_cons]
    by_cases h0 : trimmed_range_end cs = 0
    · rw [if_pos h0]
      by_cases hc : c = ' ' <;> simp [hc]
    · rw [if_neg h0]
      omega

theorem trimmed_range_end_spaces {s : Str} {j : Nat} (h1 : trimmed_range_end s ≤ j)
    (h2 : j < s.length) : s.getD j ' ' = ' ' := by
  induction s generalizing j with
  | nil => simp at h2
  | cons c cs ih =>
    simp only [trimmed_range_end] at h1
    by_cases h0 : trimmed_range_end cs = 0
    · rw [if_pos h0] at h1
      cases j with
      | zero =>
        by_cases hc : c = ' '
        · simpa [hc]
        · simp [hc] at h1
      | succ j' =>
        have := ih (j := j') (by omega) (by simpa using h2)
        simpa using this
    · rw [if_neg h0] at h1
      cases j with
      | zero => omega
      | succ j' =>
        have := ih (j := j') (by omega) (by simpa using h2)
        simpa using this

theorem trimmed_range_end_min {s : Str} {j : Nat} (hj : j < s.length)
    (h : s.getD j ' ' ≠ ' ') : j < trimmed_range_end s := by
  by_contra hc
  exact h (trimmed_range_end_spaces (by omega) hj)

theorem trimmed_range_eq (s : Str) :
    trimmed_range s =
      if trimmed_range_start s = s.length then (s.length, s.length)
      else (trimmed_range_start s, trimmed_range_end s) := rfl

/-! ## Character search -/

theorem find_char_some {p : Char → Bool} {s : Str} {i : Nat}
    (h : find_char p s = some i) : i < s.length ∧ p (s.getD i ' ') = true := by
  induction s generalizing i with
  | nil => simp [find_char] at h
  | cons c cs ih =>
    by_cases hp : p c
    · simp only [find_char, if_pos hp] at h
      injection h with h
      subst h
      simpa
    · simp only [find_char, if_neg hp, Option.map_eq_some'] at h
      obtain ⟨i', hi', rfl⟩ := h
      obtain ⟨h1, h2⟩ := ih hi'
      exact ⟨by simpa using Nat.succ_lt_succ h1, by simpa using h2⟩

/-! ## `next_line` facts -/

theorem scan_line_spec (s : Str) :
    (scan_line s).1 ≤ s.length ∧
    (∀ q, (scan_line s).2.2 = some q → q < (scan_line s).1 ∧ s.getD q ' ' = '=') := by
  unfold scan_line
  cases hf : find_char is_term_or_eq s with
  | none => simp
  | some i =>
    dsimp only
    obtain ⟨hi, _⟩ := find_char_some hf
    by_cases he : s.getD i ' ' = '='
    · rw [if_pos he]
      cases hg : find_char is_term (s.drop (i + 1)) with
      | none =>
        dsimp only
        refine ⟨Nat.le_refl _, ?_⟩
        intro q hq
        injection hq with hq
        subst hq
        exact ⟨hi, he⟩
      | some j =>
        dsimp only
        obtain ⟨hj, _⟩ := find_char_some hg
        rw [List.length_drop] at hj
        refine ⟨by omega, ?_⟩
        intro q hq
        injection hq with hq
        subst hq
        exact ⟨by omega, he⟩
    · rw [if_neg he]
      exact ⟨by omega, by simp⟩

theorem line_start_next_facts {s : Str} (hne : s ≠ []) {e : Nat} (he : e ≤ s.length)
    (le : Option Char) :
    e ≤ line_start_next s e le ∧ 1 ≤ line_start_next s e le ∧
      line_start_next s e le ≤ s.length := by
  have hlen : 1 ≤ s.length := by
    cases s with
    | nil => exact absurd rfl hne
    | cons c cs => simp
  unfold line_start_next
  split <;> refine ⟨?_, ?_, ?_⟩ <;> omega

theorem next_line_spec {u : Str} {l : Line} (h : next_line u = some l) :
    l.start_trimmed ≤ l.end_trimmed ∧ l.end_trimmed ≤ l.line_end ∧
    l.line_end ≤ u.length ∧ l.line_end ≤ l.start_next ∧
    1 ≤ l.start_next ∧ l.start_next ≤ u.length ∧
    (∀ q, l.eq = some q → q < l.line_end ∧ u.getD q ' ' = '=' ∧
      l.start_trimmed ≤ q ∧ q + 1 ≤ l.end_trimmed) := by
  match u, h with
  | c :: cs, h =>
    simp only [next_line] at h
    obtain rfl : (⟨(trimmed_range ((c :: cs).take (scan_line (c :: cs)).1)).1,
        (trimmed_range ((c :: cs).take (scan_line (c :: cs)).1)).2,
        (scan_line (c :: cs)).2.2, (scan_line (c :: cs)).1,
        line_start_next (c :: cs) (scan_line (c :: cs)).1 (scan_line (c :: cs)).2.1⟩ : Line) = l :=
      Option.some_inj.1 h
    set s : Str := c :: cs with hs
    obtain ⟨he, heq⟩ := scan_line_spec s
    set e := (scan_line s).1
    have hne : s ≠ [] := by simp [hs]
    obtain ⟨hsn1, hsn2, hsn3⟩ := line_start_next_facts hne he (scan_line s).2.1
    have htl : (s.take e).length = e := by
      rw [List.length_take]
      omega
    have htrim : (trimmed_range (s.take e)).1 ≤ (trimmed_range (s.take e)).2 ∧
        (trimmed_range (s.take e)).2 ≤ e := by
      rw [trimmed_range_eq]
      by_cases hall : trimmed_range_start (s.take e) = (s.take e).length
      · rw [if_pos hall]
        simp [htl]
      · rw [if_neg hall]
        refine ⟨?_, le_trans (trimmed_range_end_le (s.take e)) (Nat.le_of_eq htl)⟩
        have hle := trimmed_range_start_le (s.take e)
        have hlt : trimmed_range_start (s.take e) < (s.take e).length := by omega
        exact Nat.le_of_lt (trimmed_range_end_min hlt (trimmed_range_start_get hlt))
    refine ⟨htrim.1, by simpa using htrim.2, he, hsn1, hsn2, hsn3, ?_⟩
    intro q hq
    obtain ⟨hq1, hq2⟩ := heq q hq
    have hq3 : (s.take e).getD q ' ' = s.getD q ' ' := getD_take hq1 ' '
    have hq4 : (s.take e).getD q ' ' ≠ ' ' := by
      rw [hq3, hq2]
      intro hc
      cases hc
    have hq5 : q < (s.take e).length := by omega
    have hst : trimmed_range_start (s.take e) ≤ q := trimmed_range_start_min hq4
    have het : q < trimmed_range_end (s.take e) := trimmed_range_end_min hq5 hq4
    have hr : trimmed_range (s.take e) =
        (trimmed_range_start (s.take e), trimmed_range_end (s.take e)) := by
      rw [trimmed_range_eq, if_neg (by omega)]
    refine ⟨hq1, hq2, ?_, ?_⟩
    · rw [hr]
      exact hst
    · rw [hr]
      exact het

theorem strSlice_append3 (s : Str) {a b c d : Nat} (h1 : a ≤ b) (h2 : b ≤ c) (h3 : c ≤ d) :
    strSlice s a b ++ strSlice s b c ++ strSlice s c d = strSlice s a d := by
  rw [strSlice_append s h1 h2, strSlice_append s (le_trans h1 h2) h3]

theorem strSlice_append4 (s : Str) {a b c d e : Nat} (h1 : a ≤ b) (h2 : b ≤ c) (h3 : c ≤ d)
    (h4 : d ≤ e) :
    strSlice s a b ++ strSlice s b c ++ strSlice s c d ++ strSlice s d e = strSlice s a e := by
  rw [strSlice_append3 s h1 h2 h3, strSlice_append s (le_trans (le_trans h1 h2) h3) h4]

theorem strSlice_append5 (s : Str) {a b c d e f : Nat} (h1 : a ≤ b) (h2 : b ≤ c) (h3 : c ≤ d)
    (h4 : d ≤ e) (h5 : e ≤ f) :
    strSlice s a b ++ strSlice s b c ++ strSlice s c d ++ strSlice s d e ++ strSlice s e f =
      strSlice s a f := by
  rw [strSlice_append4 s h1 h2 h3 h4,
    strSlice_append s (le_trans (le_trans (le_trans h1 h2) h3) h4) h5]

theorem strSlice_append7 (s : Str) {a b c d e f g m : Nat} (h1 : a ≤ b) (h2 : b ≤ c)
    (h3 : c ≤ d) (h4 : d ≤ e) (h5 : e ≤ f) (h6 : f ≤ g) (h7 : g ≤ m) :
    strSlice s a b ++ strSlice s b c ++ strSlice s c d ++ strSlice s d e ++ strSlice s e f
      ++ strSlice s f g ++ strSlice s g m = strSlice s a m := by
  rw [strSlice_append5 s h1 h2 h3 h4 h5,
    strSlice_append s (le_trans (le_trans (le_trans (le_trans h1 h2) h3) h4) h5) h6,
    strSlice_append s (le_trans (le_trans (le_trans (le_trans (le_trans h1 h2) h3) h4) h5) h6) h7]

theorem classify_render {source : Str} {pos : Nat} {l : Line}
    (hpos : pos ≤ source.length)
    (h : next_line (source.drop pos) = some l) :
    render_item source (classify_at source pos l) =
      strSlice source pos (pos + l.start_next) := by
  obtain ⟨h1, h2, h3, h4, h5, h6, h7⟩ := next_line_spec h
  rw [List.length_drop] at h3 h6
  have het_len : pos + l.end_trimmed ≤ source.length := by omega
  simp only [classify_at]
  split
  · -- head char is '['
    rename_i heq
    split
    · -- last char is ']': a Section item
      rename_i hlast
      have hne : strSlice source (pos + l.start_trimmed) (pos + l.end_trimmed) ≠ [] := by
        intro hnil
        rw [hnil] at heq
        cases heq
      obtain ⟨hab, ha_len⟩ := strSlice_ne_nil hne
      have ha : source.get? (pos + l.start_trimmed) = some '[' :=
        (head?_strSlice source hab).symm.trans heq
      have hb : source.get? (pos + l.end_trimmed - 1) = some ']' :=
        (getLast?_strSlice source hab het_len).symm.trans hlast
      have h2le : pos + l.start_trimmed + 2 ≤ pos + l.end_trimmed := by
        by_contra hc
        have heq1 : pos + l.end_trimmed = pos + l.start_trimmed + 1 := by omega
        rw [heq1, strSlice_singleton ha] at hlast
        exact (by decide : ¬ (List.getLast? (['['] : Str) = some ']')) hlast
      have hsa : (['['] : Str) =
          strSlice source (pos + l.start_trimmed) (pos + l.start_trimmed + 1) :=
        (strSlice_singleton ha).symm
      have hsb : ([']'] : Str) =
          strSlice source (pos + l.end_trimmed - 1) (pos + l.end_trimmed) := by
        have hx := strSlice_singleton hb
        have heq2 : pos + l.end_trimmed - 1 + 1 = pos + l.end_trimmed := by omega
        rw [heq2] at hx
        exact hx.symm
      simp only [render_item, Span.of]
      rw [hsa, hsb]
      exact strSlice_append5 source (by omega) (by omega) (by omega) (by omega) (by omega)
    · -- otherwise: an Error item covering the raw line
      simp only [render_item, Span.of]
  · -- head char is ';': a Comment item
    rename_i heq
    have hne : strSlice source (pos + l.start_trimmed) (pos + l.end_trimmed) ≠ [] := by
      intro hnil
      rw [hnil] at heq
      cases heq
    obtain ⟨hab, ha_len⟩ := strSlice_ne_nil hne
    have ha : source.get? (pos + l.start_trimmed) = some ';' :=
      (head?_strSlice source hab).symm.trans heq
    have hsa : ([';'] : Str) =
        strSlice source (pos + l.start_trimmed) (pos + l.start_trimmed + 1) :=
      (strSlice_singleton ha).symm
    simp only [render_item, Span.of]
    rw [hsa]
    exact strSlice_append4 source (by omega) (by omega) (by omega) (by omega)
  · -- other head char: Property when a `=` was found, Error otherwise
    rename_i heq
    split
    · -- Property
      rename_i q hq
      obtain ⟨hq1, hq2, hq3, hq4⟩ := h7 q hq
      rw [getD_drop] at hq2
      have hq_len : pos + q < source.length := by omega
      have hqc : source.get? (pos + q) = some '=' := by
        rw [get?_of_getD hq_len ' ', hq2]
      have hek : pos + l.start_trimmed
          + trimmed_range_end (strSlice source (pos + l.start_trimmed) (pos + q)) ≤ pos + q := by
        have := trimmed_range_end_le (strSlice source (pos + l.start_trimmed) (pos + q))
        rw [length_strSlice _ (by omega)] at this
        omega
      have hsv : pos + q + 1
          + trimmed_range_start (strSlice source (pos + q + 1) (pos + l.end_trimmed))
            ≤ pos + l.end_trimmed := by
        have := trimmed_range_start_le (strSlice source (pos + q + 1) (pos + l.end_trimmed))
        rw [length_strSlice _ (by omega)] at this
        omega
      have hsa : (['='] : Str) = strSlice source (pos + q) (pos + q + 1) :=
        (strSlice_singleton hqc).symm
      simp only [render_item, Span.of]
      rw [hsa]
      exact strSlice_append7 source (by omega) (by omega) (by omega) (by omega) (by omega)
        (by omega) (by omega)
    · -- Error
      simp only [render_item, Span.of]
  · -- empty trimmed content: a Blank item covering the raw line
    simp only [render_item, Span.of]

theorem parse_loop_render (source : Str) :
    ∀ fuel pos, source.length - pos < fuel → pos ≤ source.length →
      ((parse_loop source fuel pos).map (render_item source)).flatten = source.drop pos := by
  intro fuel
  induction fuel with
  | zero =>
    intro pos h1 h2
    omega
  | succ f ih =>
    intro pos h1 h2
    simp only [parse_loop]
    cases hn : next_line (source.drop pos) with
    | none =>
      have hnil : source.drop pos = [] := by
        cases hd : source.drop pos with
        | nil => rfl
        | cons c cs =>
          rw [hd] at hn
          simp [next_line] at hn
      simp [hnil]
    | some l =>
      have hne : source.drop pos ≠ [] := by
        intro hd
        rw [hd] at hn
        simp [next_line] at hn
      have hplt : pos < source.length := by
        by_contra hc
        exact hne (List.drop_eq_nil_iff.2 (by omega))
      obtain ⟨_, _, _, _, h5, h6, _⟩ := next_line_spec hn
      rw [List.length_drop] at h6
      simp only [List.map_cons, List.flatten_cons]
      rw [classify_render h2 hn, ih (pos + l.start_next) (by omega) (by omega)]
      have hps : pos + l.start_next - pos = l.start_next := by omega
      have hx : strSlice source pos (pos + l.start_next) = (source.drop pos).take l.start_next := by
        unfold strSlice
        rw [hps]
      have h8 : source.drop (pos + l.start_next) = (source.drop pos).drop l.start_next := by
        rw [List.drop_drop]
      rw [hx, h8, List.take_append_drop]

theorem parse_items_render (source : Str) :
    ((parse_items source).map (render_item source)).flatten = source := by
  have h := parse_loop_render source (source.length + 1) 0 (by omega) (by omega)
  simpa [parse_items] using h

theorem part_step_flat (acc : ConcreteSection × List ConcreteSection) (it : Item) :
    part_flat (part_step acc it) = part_flat acc ++ [it] := by
  obtain ⟨g, secs⟩ := acc
  cases it with
  | Section k p =>
    simp [part_step, part_flat]
  | Error sp =>
    cases secs with
    | nil => simp [part_step, part_flat]
    | cons s ss => simp [part_step, part_flat]
  | Property p pad =>
    cases secs with
    | nil => simp [part_step, part_flat]
    | cons s ss => simp [part_step, part_flat]
  | Comment c p =>
    cases secs with
    | nil => simp [part_step, part_flat]
    | cons s ss => simp [part_step, part_flat]
  | Blank sp =>
    cases secs with
    | nil => simp [part_step, part_flat]
    | cons s ss => simp [part_step, part_flat]

theorem foldl_part_flat (items : List Item) (acc : ConcreteSection × List ConcreteSection) :
    part_flat (items.foldl part_step acc) = part_flat acc ++ items := by
  induction items generalizing acc with
  | nil => simp
  | cons it rest ih =>
    rw [List.foldl_cons, ih, part_step_flat]
    simp

theorem to_text_flatten (src : Str) (secs : List ConcreteSection) :
    (secs.map (fun s => s.to_text src)).flatten
      = ((secs.map ConcreteSection.items).flatten.map (render_item src)).flatten := by
  induction secs with
  | nil => simp
  | cons s ss ih =>
    simp only [List.map_cons, List.flatten_cons, List.map_append, List.flatten_append, ih]
    rfl

/-- C1. Round-trip identity: for every source text, constructing a document
with `Ini::new` and serializing it unmodified with `to_string` yields the
source back, character for character — across any mix of terminators,
malformed lines, and irregular spacing. -/
theorem C1_roundtrip (s : Str) : (Ini.new s).to_string = s := by
  simp only [Ini.new, Ini.to_string]
  rw [ConcreteSection.to_text, to_text_flatten, ← List.flatten_append, ← List.map_append]
  have hseed : part_flat (⟨[]⟩, []) = [] := rfl
  have h := foldl_part_flat (parse_items s) (⟨[]⟩, [])
  rw [hseed] at h
  simp only [List.nil_append] at h
  rw [show ((parse_items s).foldl part_step (⟨[]⟩, [])).1.items
        ++ ((((parse_items s).foldl part_step (⟨[]⟩, [])).2.reverse.map
          ConcreteSection.items).flatten)
      = part_flat ((parse_items s).foldl part_step (⟨[]⟩, [])) from rfl]
  rw [h]
  exact parse_items_render s

/-! ## ASCII case lemmas -/

theorem char_le_toNat (a b : Char) : (a ≤ b) ↔ a.toNat ≤ b.toNat := Iff.rfl

theorem toNat_ofNat_small {n : Nat} (h : n < 55296) : (Char.ofNat n).toNat = n := by
  unfold Char.ofNat
  rw [dif_pos (Or.inl h)]
  rfl

theorem ascii_lower_char_idem (c : Char) :
    ascii_lower_char (ascii_lower_char c) = ascii_lower_char c := by
  unfold ascii_lower_char
  by_cases h : 'A' ≤ c ∧ c ≤ 'Z'
  · rw [if_pos h]
    have ha65 : ('A' : Char).toNat = 65 := by decide
    have hz90 : ('Z' : Char).toNat = 90 := by decide
    have h1 : (65 : Nat) ≤ c.toNat := by
      have hx := (char_le_toNat 'A' c).1 h.1
      rw [ha65] at hx
      exact hx
    have h2 : c.toNat ≤ 90 := by
      have hx := (char_le_toNat c 'Z').1 h.2
      rw [hz90] at hx
      exact hx
    have hv : (Char.ofNat (c.toNat + 32)).toNat = c.toNat + 32 := toNat_ofNat_small (by omega)
    rw [if_neg ?hne]
    case hne =>
      rintro ⟨ha, hb⟩
      have hb' := (char_le_toNat (Char.ofNat (c.toNat + 32)) 'Z').1 hb
      rw [hv, hz90] at hb'
      omega
  · rw [if_neg h, if_neg h]

theorem ascii_lower_idem (s : Str) : ascii_lower (ascii_lower s) = ascii_lower s := by
  unfold ascii_lower
  rw [List.map_map]
  exact List.map_congr_left (fun c _ => ascii_lower_char_idem c)

/-! ## Section index lemmas -/

theorem index_get_add (idx : Index) (kA : Str) (i : Nat) (k : Str) :
    index_get (index_add idx kA i) k =
      if k = kA then some ((index_get idx kA).getD [] ++ [i]) else index_get idx k := by
  induction idx with
  | nil =>
    by_cases h : k = kA
    · subst h
      simp [index_add, index_get]
    · have h' : ¬ kA = k := fun hc => h hc.symm
      simp [index_add, index_get, h, h']
  | cons e rest ih =>
    obtain ⟨ke, ve⟩ := e
    by_cases he : ke = kA
    · subst he
      by_cases h : ke = k
      · subst h
        simp [index_add, index_get]
      · have h' : ¬ k = ke := fun hc => h hc.symm
        simp [index_add, index_get, h, h']
    · by_cases h : ke = k
      · subst h
        have h' : ¬ ke = kA := he
        simp [index_add, index_get, h', fun hc : ke = kA => he hc]
      · have h' : ¬ k = ke := fun hc => h hc.symm
        simp [index_add, index_get, h, h', he, ih]

theorem index_get_build_aux (src : Str) (secs : List ConcreteSection) (k : Str) :
    ∀ (i : Nat) (idx : Index),
      index_get (build_aux src secs i idx) k =
        match index_get idx k with
        | some o => some (o ++ positions_from src secs i k)
        | none => opt_list (positions_from src secs i k) := by
  induction secs with
  | nil =>
    intro i idx
    simp only [build_aux, positions_from]
    cases index_get idx k <;> simp [opt_list]
  | cons sec rest ih =>
    intro i idx
    simp only [build_aux, positions_from]
    rw [ih, index_get_add]
    by_cases hk : k = ascii_lower (ConcreteSection.key src sec)
    · rw [← hk, if_pos rfl, if_pos rfl]
      cases hg : index_get idx k with
      | some o =>
        dsimp only
        rw [Option.getD_some, List.append_assoc]
      | none =>
        dsimp only
        rw [Option.getD_none, List.nil_append]
        have hne : ([i] ++ positions_from src rest (i + 1) k : List Nat) ≠ [] := by simp
        simp [opt_list, hne]
    · rw [if_neg hk, if_neg (fun hc => hk hc.symm), List.nil_append]

theorem index_get_build (src : Str) (secs : List ConcreteSection) (k : Str) :
    index_get (build_section_index src secs) k = opt_list (positions_from src secs 0 k) := by
  rw [build_section_index, index_get_build_aux]
  simp [index_get]

theorem positions_from_eq_nil {src : Str} {secs : List ConcreteSection} {k : Str}
    (h : ∀ sec ∈ secs, ascii_lower (sec.key src) ≠ k) (i : Nat) :
    positions_from src secs i k = [] := by
  induction secs generalizing i with
  | nil => rfl
  | cons sec rest ih =>
    simp only [positions_from]
    rw [if_neg (h sec (by simp)), ih (fun s hs => h s (by simp [hs]))]
    rfl

/-! ## Case-insensitivity congruences -/

theorem eq_ignore_congr {pk pk' : Str} (h : ascii_lower pk = ascii_lower pk') (a : Str) :
    eq_ignore_ascii_case a pk = eq_ignore_ascii_case a pk' := by
  simp [eq_ignore_ascii_case, h]

theorem find_prop_congr {src pk pk' : Str} (h : ascii_lower pk = ascii_lower pk')
    (items : List Item) : find_prop src pk items = find_prop src pk' items := by
  induction items with
  | nil => rfl
  | cons it rest ih =>
    cases it with
    | Property p pad => simp [find_prop, ih, eq_ignore_congr h]
    | Error sp => simp [find_prop, ih]
    | Section k p => simp [find_prop, ih]
    | Comment c p => simp [find_prop, ih]
    | Blank sp => simp [find_prop, ih]

theorem sec_get_congr (src : Str) {pk pk' : Str} (h : ascii_lower pk = ascii_lower pk')
    (sec : ConcreteSection) : sec.get src pk = sec.get src pk' := by
  unfold ConcreteSection.get
  rw [find_prop_congr h]

theorem sec_has_congr (src : Str) {pk pk' : Str} (h : ascii_lower pk = ascii_lower pk')
    (sec : ConcreteSection) : sec.has src pk = sec.has src pk' := by
  unfold ConcreteSection.has
  rw [find_prop_congr h]

/-! ## Claim theorems C2, C5, C6, C10 -/

/-- C2.  The claim says `remove` deletes exactly the matching properties; the
code keeps them instead (inverted filter): on the spec's own scenario
`"[S]\nA=1\n[S]\nA=2\n"`, after `remove_in("S","A")` the key is still present
and both `A=1` and `A=2` are still serialized, while a non-matching `B=2`
property IS deleted. -/
theorem C2_remove_keeps_matches :
    ((Ini.new (str "[S]\nA=1\n[S]\nA=2\n")).remove_in (str "S") (str "A")).has_in
        (str "S") (str "A") = true ∧
    ((Ini.new (str "[S]\nA=1\n[S]\nA=2\n")).remove_in (str "S") (str "A")).to_string
      = str "[S]\nA=1\n[S]\nA=2\n" ∧
    ((Ini.new (str "[S]\nA=1\nB=2\n")).remove_in (str "S") (str "A")).to_string
      = str "[S]\nA=1\n" := by
  refine ⟨by decide, by decide, by decide⟩

/-- C5.  Parsing is total and malformed input is preserved as data: every
input renders back to itself item by item, and on `"[Broken\nK=V\n"` the
unmatched `[` line becomes an `Error` item holding the raw line (terminator
included), construction succeeds, serialization reproduces the input, and
no section named `Broken` exists. -/
theorem C5_malformed_is_data :
    (∀ s : Str, ((parse_items s).map (render_item s)).flatten = s) ∧
    parse_items (str "[Broken\nK=V\n") =
      [Item.Error (Span.Sliced 0 8),
       Item.Property ⟨Span.Sliced 8 9, Span.Sliced 10 11⟩
         ⟨Span.Sliced 8 8, Span.Sliced 9 9, Span.Sliced 10 10, Span.Sliced 11 12⟩] ∧
    render_item (str "[Broken\nK=V\n") (Item.Error (Span.Sliced 0 8)) = str "[Broken\n" ∧
    (Ini.new (str "[Broken\nK=V\n")).to_string = str "[Broken\nK=V\n" ∧
    (Ini.new (str "[Broken\nK=V\n")).has_section (str "Broken") = false := by
  exact ⟨parse_items_render, by decide, by decide, by decide, by decide⟩

/-- C6.  Lookup is invariant under ASCII case change of both keys, on every
document; only ASCII letters fold (a non-ASCII case variant such as `ä` for
`Ä` is a distinct key). -/
theorem C6_case_insensitive_lookup (d : Ini) (sk sk' pk pk' : Str)
    (hs : ascii_lower sk = ascii_lower sk') (hp : ascii_lower pk = ascii_lower pk') :
    (d.get_in sk pk = d.get_in sk' pk' ∧ d.has_in sk pk = d.has_in sk' pk') ∧
    (Ini.new (str "[Ä]\nK=V\n")).get_in (str "Ä") (str "K") = some (str "V") ∧
    (Ini.new (str "[Ä]\nK=V\n")).get_in (str "ä") (str "K") = none := by
  refine ⟨⟨?_, ?_⟩, by decide, by decide⟩
  · unfold Ini.get_in
    rw [hs]
    cases index_get d.section_index (ascii_lower sk') with
    | none => rfl
    | some idxs =>
      have hf : (fun i => (secAt d.sections i).get d.source pk)
          = (fun i => (secAt d.sections i).get d.source pk') := by
        funext i
        exact sec_get_congr d.source hp _
      simp only [hf]
  · unfold Ini.has_in
    rw [hs]
    cases index_get d.section_index (ascii_lower sk') with
    | none => rfl
    | some idxs =>
      unfold v_has
      have hf : (fun i => (secAt d.sections i).has d.source pk)
          = (fun i => (secAt d.sections i).has d.source pk') := by
        funext i
        exact sec_has_congr d.source hp _
      simp only [hf]

/-- Witness for C6 at a concrete document and key pair. -/
theorem C6_case_insensitive_lookup_witness :
    ((Ini.new (str "[World]\nName=X\n")).get_in (str "WORLD") (str "name")
        = (Ini.new (str "[World]\nName=X\n")).get_in (str "World") (str "Name") ∧
      (Ini.new (str "[World]\nName=X\n")).has_in (str "WORLD") (str "name")
        = (Ini.new (str "[World]\nName=X\n")).has_in (str "World") (str "Name")) ∧
    (Ini.new (str "[Ä]\nK=V\n")).get_in (str "Ä") (str "K") = some (str "V") ∧
    (Ini.new (str "[Ä]\nK=V\n")).get_in (str "ä") (str "K") = none :=
  C6_case_insensitive_lookup (Ini.new (str "[World]\nName=X\n"))
    (str "WORLD") (str "World") (str "name") (str "Name") (by decide) (by decide)

/-- `remove_section` only depends on the lowercased key. -/
theorem remove_section_congr (d : Ini) {k k' : Str} (h : ascii_lower k = ascii_lower k') :
    d.remove_section k = d.remove_section k' := by
  unfold Ini.remove_section Ini.has_section
  rw [h]
  have hpred : (fun sec : ConcreteSection => ! eq_ignore_ascii_case (sec.key d.source) k)
      = (fun sec : ConcreteSection => ! eq_ignore_ascii_case (sec.key d.source) k') := by
    funext sec
    rw [eq_ignore_congr h]
  rw [hpred]

/-- After `remove_section k`, the lowercased key `k` is gone from the index. -/
theorem remove_section_index_none (d : Ini) (f : Str) :
    index_get (d.remove_section f).section_index (ascii_lower f) = none := by
  unfold Ini.remove_section
  by_cases hh : d.has_section f
  · rw [if_pos hh]
    rw [index_get_build]
    rw [positions_from_eq_nil ?hnomatch]
    · rfl
    case hnomatch =>
      intro sec hsec
      rw [List.mem_filter] at hsec
      have h2 := hsec.2
      simp only [eq_ignore_ascii_case, Bool.not_eq_true'] at h2
      intro hc
      rw [decide_eq_false_iff_not] at h2
      exact h2 hc
  · rw [if_neg hh]
    unfold Ini.has_section at hh
    simpa using hh

/-- C10.  Self-rename deletes: when `to_key` is an ASCII-case variant of
`from_key`, `rename_section` coincides with `remove_section from_key` (the
pre-existing `to` group removed first IS the `from` group), and afterwards
the section is gone. -/
theorem C10_self_rename_deletes (d : Ini) (f t : Str)
    (h : ascii_lower f = ascii_lower t) :
    d.rename_section f t = d.remove_section f ∧
    (d.rename_section f t).has_section f = false := by
  have hlow : ascii_lower (ascii_lower t) = ascii_lower f := by
    rw [ascii_lower_idem, h]
  have hmain : d.rename_section f t = d.remove_section f := by
    simp only [Ini.rename_section]
    rw [remove_section_congr d hlow]
    simp only [index_remove]
    rw [remove_section_index_none]
  rw [hmain]
  refine ⟨rfl, ?_⟩
  unfold Ini.has_section
  rw [remove_section_index_none]
  rfl

/-- Witness for C10 on a concrete document. -/
theorem C10_self_rename_deletes_witness :
    ((Ini.new (str "[A]\nX=1\n[a]\nY=2\n")).rename_section (str "A") (str "a")
        = (Ini.new (str "[A]\nX=1\n[a]\nY=2\n")).remove_section (str "A")) ∧
    ((Ini.new (str "[A]\nX=1\n[a]\nY=2\n")).rename_section (str "A") (str "a")).has_section
        (str "A") = false :=
  C10_self_rename_deletes (Ini.new (str "[A]\nX=1\n[a]\nY=2\n")) (str "A") (str "a") (by decide)

/-! ## `borrow_indices_mut` (C9) -/

theorem borrow_go_spec : ∀ (idxs : List Nat) (rsa rlen : Nat),
    List.Pairwise (· < ·) idxs →
    (∀ i ∈ idxs, i < rsa + rlen) →
    (∀ i ∈ idxs, rsa ≤ i) →
    borrow_go rsa rlen idxs = some idxs := by
  intro idxs
  induction idxs with
  | nil =>
    intro rsa rlen _ _ _
    rfl
  | cons i rest ih =>
    intro rsa rlen hpw hub hlb
    have hi_lb : rsa ≤ i := hlb i (by simp)
    have hi_ub : i < rsa + rlen := hub i (by simp)
    have hrest : ∀ j ∈ rest, i < j := fun j hj => (List.pairwise_cons.1 hpw).1 j hj
    simp only [borrow_go]
    rw [if_neg (by omega)]
    rw [if_neg (by omega)]
    rw [ih (rsa + (i - rsa + 1)) (rlen - (i - rsa + 1)) (List.pairwise_cons.1 hpw).2
      (fun j hj => by have := hub j (by simp [hj]); omega)
      (fun j hj => by have := hrest j hj; omega)]
    have hfix : rsa + (i - rsa) = i := by omega
    rw [Option.map_some', hfix]

/-- C9.  Safe index partitioning: for a strictly ascending, in-bounds index
list (the form the section index guarantees), `borrow_indices_mut` neither
underflows in `i - rest_starts_at` nor splits out of bounds, and returns
exactly one reference per listed index, each at that index — modelled by the
result `some idxs` of the loop with every panic made an explicit `none`. -/
theorem C9_borrow_indices_safe (len : Nat) (idxs : List Nat)
    (hsorted : List.Pairwise (· < ·) idxs) (hbound : ∀ i ∈ idxs, i < len) :
    borrow_indices_mut len idxs = some idxs :=
  borrow_go_spec idxs 0 len hsorted (by simpa using hbound) (fun i _ => Nat.zero_le i)

/-- Witness for C9 on a concrete index list. -/
theorem C9_borrow_indices_safe_witness : borrow_indices_mut 5 [1, 3, 4] = some [1, 3, 4] :=
  C9_borrow_indices_safe 5 [1, 3, 4] (by decide) (by decide)

/-! ## `set_last` characterization (C7, C4) -/

theorem set_last_none {src k v : Str} (items : List Item)
    (h : ∀ p pad, Item.Property p pad ∈ items →
      eq_ignore_ascii_case (p.key.of src) k = false) :
    set_last src k v items = none := by
  induction items with
  | nil => rfl
  | cons it rest ih =>
    have hrest := ih (fun p pad hm => h p pad (List.mem_cons_of_mem _ hm))
    cases it with
    | Property p pad =>
      simp only [set_last, hrest]
      rw [h p pad (List.mem_cons_self _ _)]
      rfl
    | Error sp => simp only [set_last, hrest]
    | Section kk pp => simp only [set_last, hrest]
    | Comment cc pp => simp only [set_last, hrest]
    | Blank sp => simp only [set_last, hrest]

theorem set_last_found {src k v : Str} : ∀ (items : List Item) (j : Nat) (p : Prop')
    (pad : Padding4),
    items.get? j = some (Item.Property p pad) →
    eq_ignore_ascii_case (p.key.of src) k = true →
    (∀ j' p' pad', j < j' → items.get? j' = some (Item.Property p' pad') →
      eq_ignore_ascii_case (p'.key.of src) k = false) →
    set_last src k v items = some (items.set j (Item.Property ⟨p.key, Span.Owned v⟩ pad)) := by
  intro items
  induction items with
  | nil =>
    intro j p pad hj
    simp at hj
  | cons it rest ih =>
    intro j p pad hj hmatch hafter
    cases j with
    | zero =>
      simp only [List.get?] at hj
      injection hj with hj
      subst hj
      have hnone : set_last src k v rest = none := by
        apply set_last_none
        intro p' pad' hm
        obtain ⟨j', hj'⟩ := List.get?_of_mem hm
        exact hafter (j' + 1) p' pad' (by omega) (by simpa using hj')
      simp only [set_last, hnone, hmatch]
      rfl
    | succ j' =>
      have hrec := ih j' p pad (by simpa using hj) hmatch
        (fun j'' p' pad' hlt hj'' => hafter (j'' + 1) p' pad' (by omega) (by simpa using hj''))
      cases it with
      | Property q qpad => simp only [set_last, hrec, List.set]
      | Error sp => simp only [set_last, hrec, List.set]
      | Section kk pp => simp only [set_last, hrec, List.set]
      | Comment cc pp => simp only [set_last, hrec, List.set]
      | Blank sp => simp only [set_last, hrec, List.set]

/-- C7.  Frame condition of in-place `set`: when position `j` holds the last
case-insensitive match for the key, `set` changes only that item, and it only
replaces the value span (the key span and all padding of item `j`, and every
other item, are untouched — the result is `items.set j` of a property with
the same key span and padding); when no item matches, `set` appends exactly
one fresh property with default padding, leaving all items untouched. -/
theorem C7_set_frame (src k v : Str) (s : ConcreteSection) :
    (∀ (j : Nat) (p : Prop') (pad : Padding4),
      s.items.get? j = some (Item.Property p pad) →
      eq_ignore_ascii_case (p.key.of src) k = true →
      (∀ j' p' pad', j < j' → s.items.get? j' = some (Item.Property p' pad') →
        eq_ignore_ascii_case (p'.key.of src) k = false) →
      (s.set src k v).items = s.items.set j (Item.Property ⟨p.key, Span.Owned v⟩ pad)) ∧
    ((∀ p pad, Item.Property p pad ∈ s.items →
        eq_ignore_ascii_case (p.key.of src) k = false) →
      (s.set src k v).items = s.items ++ [default_prop k v]) := by
  constructor
  · intro j p pad h1 h2 h3
    unfold ConcreteSection.set
    rw [set_last_found s.items j p pad h1 h2 h3]
  · intro h
    unfold ConcreteSection.set
    rw [set_last_none s.items h]

/-- Witness for C7 on a concrete section with a duplicate key. -/
theorem C7_set_frame_witness :
    ((ConcreteSection.mk [default_prop (str "A") (str "1"), default_prop (str "B") (str "2"),
        default_prop (str "A") (str "3")]).set (str "") (str "a") (str "9")).items
      = [default_prop (str "A") (str "1"), default_prop (str "B") (str "2"),
          Item.Property ⟨Span.Owned (str "A"), Span.Owned (str "9")⟩
            ⟨Span.Owned [], Span.Owned [], Span.Owned [], Span.Owned ['\n']⟩] := by
  have h := (C7_set_frame (str "") (str "a") (str "9")
      (ConcreteSection.mk [default_prop (str "A") (str "1"), default_prop (str "B") (str "2"),
        default_prop (str "A") (str "3")])).1 2
      ⟨Span.Owned (str "A"), Span.Owned (str "3")⟩
      ⟨Span.Owned [], Span.Owned [], Span.Owned [], Span.Owned ['\n']⟩
      (by decide) (by decide)
      (fun j' p' pad' hlt hj' => by
        rw [List.get?_eq_none.2 (by simp [default_prop]; omega)] at hj'
        cases hj')
  rw [h]
  decide

/-! ## `replace` probe semantics (C4) -/

theorem set_last_isSome (src k v : Str) (items : List Item) :
    (set_last src k v items).isSome = (find_prop src k items).isSome := by
  induction items with
  | nil => rfl
  | cons it rest ih =>
    simp only [set_last, find_prop]
    cases hsl : set_last src k v rest with
    | some r' =>
      have hne : find_prop src k rest ≠ none := by
        intro hc
        rw [hsl, hc] at ih
        simp at ih
      obtain ⟨p, hp⟩ := Option.ne_none_iff_exists'.1 hne
      rw [hp]
      rfl
    | none =>
      have hfp : find_prop src k rest = none := by
        cases hfp : find_prop src k rest with
        | none => rfl
        | some p =>
          rw [hsl, hfp] at ih
          simp at ih
      rw [hfp]
      cases it with
      | Property p pad =>
        by_cases hc : eq_ignore_ascii_case (p.key.of src) k = true
        · simp only [hc]
          rfl
        · simp only [Bool.not_eq_true] at hc
          simp only [hc]
          rfl
      | Error sp => rfl
      | Section kk pp => rfl
      | Comment cc pp => rfl
      | Blank sp => rfl

theorem has_iff_set_last (src k v : Str) (s : ConcreteSection) :
    s.has src k = (set_last src k v s.items).isSome := by
  unfold ConcreteSection.has
  rw [set_last_isSome]

theorem replace_eq (src k v : Str) (s : ConcreteSection) :
    s.replace src k v = if s.has src k then (none, s.set src k v) else (some v, s) := by
  have hh := has_iff_set_last src k v s
  cases hsl : set_last src k v s.items with
  | some items' =>
    rw [hsl] at hh
    simp only [ConcreteSection.replace, ConcreteSection.set, hsl]
    rw [if_pos (by rw [hh]; rfl)]
  | none =>
    rw [hsl] at hh
    simp only [ConcreteSection.replace, ConcreteSection.set, hsl]
    rw [if_neg (by rw [hh]; simp)]

theorem v_set_go_skip (src k v : Str) (first : Option Nat) (secs : List ConcreteSection)
    (pre rest : List Nat) (h : ∀ i ∈ pre, (secAt secs i).has src k = false) :
    v_set_go src k v first secs (pre ++ rest) = v_set_go src k v first secs rest := by
  induction pre with
  | nil => rfl
  | cons i pre' ih =>
    rw [List.cons_append]
    simp only [v_set_go]
    rw [replace_eq, if_neg (by rw [h i (by simp)]; simp)]
    exact ih (fun j hj => h j (by simp [hj]))

/-- C4.  Group write algorithm of `VirtualSectionMut::set`: the probe scans
every member except the first, most recent first; the first probed member
whose section has the key keeps the value (nothing else changes) and the
scan stops; if no non-first member has the key, the value is set on the
first member.  On `"[A]\nX=1\n[A]\nY=5"`, `set_in("A","Z","9")` therefore
places `Z=9` in the first `[A]` block. -/
theorem C4_group_set_probe (src k v : Str) :
    (∀ (secs : List ConcreteSection) (i0 : Nat) (rest : List Nat),
      (∀ i ∈ rest, (secAt secs i).has src k = false) →
      v_set src k v secs (i0 :: rest) = secs.set i0 ((secAt secs i0).set src k v)) ∧
    (∀ (secs : List ConcreteSection) (i0 j : Nat) (r1 r2 : List Nat),
      (secAt secs j).has src k = true →
      (∀ i ∈ r2, (secAt secs i).has src k = false) →
      v_set src k v secs (i0 :: (r1 ++ j :: r2)) = secs.set j ((secAt secs j).set src k v)) ∧
    ((Ini.new (str "[A]\nX=1\n[A]\nY=5")).set_in (str "A") (str "Z") (str "9")).to_string
      = str "[A]\nX=1\nZ=9\n[A]\nY=5" := by
  refine ⟨?_, ?_, by decide⟩
  · intro secs i0 rest h
    unfold v_set
    rw [show ((i0 :: rest).drop 1) = rest from rfl,
      show (i0 :: rest).head? = some i0 from rfl]
    have hskip := v_set_go_skip src k v (some i0) secs rest.reverse []
      (fun i hi => h i (List.mem_reverse.1 hi))
    rw [List.append_nil] at hskip
    rw [hskip]
    rfl
  · intro secs i0 j r1 r2 hj hr2
    unfold v_set
    rw [show ((i0 :: (r1 ++ j :: r2)).drop 1) = r1 ++ j :: r2 from rfl,
      show (i0 :: (r1 ++ j :: r2)).head? = some i0 from rfl]
    rw [List.reverse_append, List.reverse_cons, List.append_assoc]
    have hskip := v_set_go_skip src k v (some i0) secs r2.reverse ([j] ++ r1.reverse)
      (fun i hi => hr2 i (List.mem_reverse.1 hi))
    rw [hskip, List.cons_append]
    simp only [v_set_go]
    rw [replace_eq, if_pos (by rw [hj])]

/-- Witness for C4's probe characterization at a concrete two-member group. -/
theorem C4_group_set_probe_witness :
    v_set (str "") (str "A") (str "9")
        [ConcreteSection.mk [default_prop (str "A") (str "1")],
          ConcreteSection.mk [default_prop (str "A") (str "2")]]
        (0 :: ([] ++ 1 :: []))
      = [ConcreteSection.mk [default_prop (str "A") (str "1")],
          ConcreteSection.mk [default_prop (str "A") (str "2")]].set 1
          ((secAt [ConcreteSection.mk [default_prop (str "A") (str "1")],
            ConcreteSection.mk [default_prop (str "A") (str "2")]] 1).set
              (str "") (str "A") (str "9")) :=
  (C4_group_set_probe (str "") (str "A") (str "9")).2.1
    [ConcreteSection.mk [default_prop (str "A") (str "1")],
      ConcreteSection.mk [default_prop (str "A") (str "2")]]
    0 1 [] [] (by decide) (fun i hi => absurd hi (List.not_mem_nil i))

/-! ## Group lookup = last match over the concatenated group (C3) -/

theorem lmv_foldl_gen (src pk : Str) (ys : List Item) : ∀ (a : Option Str),
    ys.foldl (lmv_step src pk) a =
      match ys.foldl (lmv_step src pk) none with
      | some v => some v
      | none => a := by
  induction ys with
  | nil =>
    intro a
    rfl
  | cons y ys' ih =>
    intro a
    rw [List.foldl_cons, List.foldl_cons, ih (lmv_step src pk a y),
      ih (lmv_step src pk none y)]
    cases hys : ys'.foldl (lmv_step src pk) none with
    | some v => rfl
    | none =>
      cases y with
      | Property p pad =>
        by_cases hc : eq_ignore_ascii_case (p.key.of src) pk = true
        · simp [lmv_step, hc]
        · simp only [Bool.not_eq_true] at hc
          simp [lmv_step, hc]
      | Error sp => rfl
      | Section kk pp => rfl
      | Comment cc pp => rfl
      | Blank sp => rfl

theorem last_matching_append (src pk : Str) (xs ys : List Item) :
    last_matching_value src pk (xs ++ ys) =
      match last_matching_value src pk ys with
      | some v => some v
      | none => last_matching_value src pk xs := by
  unfold last_matching_value
  rw [List.foldl_append, lmv_foldl_gen]

theorem find_prop_lmv (src pk : Str) (items : List Item) :
    (find_prop src pk items).map (fun p => p.value.of src)
      = last_matching_value src pk items := by
  induction items with
  | nil => rfl
  | cons it rest ih =>
    have hstep : last_matching_value src pk (it :: rest)
        = match last_matching_value src pk rest with
          | some v => some v
          | none => lmv_step src pk none it := by
      unfold last_matching_value
      rw [List.foldl_cons, lmv_foldl_gen]
    rw [hstep]
    simp only [find_prop]
    cases hf : find_prop src pk rest with
    | some p =>
      rw [hf] at ih
      rw [← ih]
      rfl
    | none =>
      rw [hf] at ih
      rw [← ih]
      cases it with
      | Property p pad =>
        by_cases hc : eq_ignore_ascii_case (p.key.of src) pk = true
        · simp [lmv_step, hc]
        · simp only [Bool.not_eq_true] at hc
          simp [lmv_step, hc]
      | Error sp => rfl
      | Section kk pp => rfl
      | Comment cc pp => rfl
      | Blank sp => rfl

theorem find_some_idx_append (f : Nat → Option Str) (l1 l2 : List Nat) :
    find_some_idx f (l1 ++ l2) =
      match find_some_idx f l1 with
      | some v => some v
      | none => find_some_idx f l2 := by
  induction l1 with
  | nil => rfl
  | cons i l1' ih =>
    simp only [List.cons_append, find_some_idx]
    cases f i with
    | some v => rfl
    | none => exact ih

theorem v_get_eq_lmv (src pk : Str) (secs : List ConcreteSection) (ps : List Nat) :
    find_some_idx (fun i => (secAt secs i).get src pk) ps.reverse
      = last_matching_value src pk
          ((ps.map (fun i => (secAt secs i).items)).flatten) := by
  induction ps with
  | nil => rfl
  | cons i ps' ih =>
    rw [List.reverse_cons, find_some_idx_append, ih]
    simp only [List.map_cons, List.flatten_cons]
    rw [last_matching_append]
    cases last_matching_value src pk ((ps'.map (fun i => (secAt secs i).items)).flatten) with
    | some v => rfl
    | none =>
      show find_some_idx (fun i => (secAt secs i).get src pk) [i]
        = last_matching_value src pk (secAt secs i).items
      have hget : (secAt secs i).get src pk
          = last_matching_value src pk (secAt secs i).items := by
        unfold ConcreteSection.get
        exact find_prop_lmv src pk (secAt secs i).items
      simp only [find_some_idx]
      rw [hget]
      cases last_matching_value src pk (secAt secs i).items with
      | some v => rfl
      | none => rfl

theorem opt_list_eq_none {ps : List Nat} : opt_list ps = none ↔ ps = [] := by
  unfold opt_list
  by_cases h : ps = [] <;> simp [h]

theorem opt_list_eq_some {ps qs : List Nat} : opt_list ps = some qs ↔ ps = qs ∧ qs ≠ [] := by
  unfold opt_list
  by_cases h : ps = []
  · subst h
    rw [if_pos rfl]
    constructor
    · intro hc
      cases hc
    · rintro ⟨h1, h2⟩
      exact absurd h1.symm h2
  · rw [if_neg h]
    constructor
    · intro he
      injection he with he
      exact ⟨he, he ▸ h⟩
    · rintro ⟨h1, _⟩
      rw [h1]

/-- C3.  Lookup precedence is most-recent-wins: `get_in` on a freshly
parsed document equals the value of the LAST matching property in the
concatenation of the group's sections taken in ascending position order
(so higher physical positions shadow lower ones, and within one section the
later duplicate wins); absence when no member has the key.  The two spec
scenarios are instances. -/
theorem C3_lookup_most_recent_wins (s sk pk : Str) :
    (Ini.new s).get_in sk pk
      = last_matching_value s pk
          (((positions_from s (Ini.new s).sections 0 (ascii_lower sk)).map
              (fun i => (secAt (Ini.new s).sections i).items)).flatten) ∧
    (Ini.new (str "[A]\nX=1\n[A]\nX=2")).get_in (str "A") (str "X") = some (str "2") ∧
    (Ini.new (str "[A]\nX=1\nX=2")).get_in (str "A") (str "X") = some (str "2") := by
  refine ⟨?_, by decide, by decide⟩
  have hidx : (Ini.new s).section_index
      = build_section_index s (Ini.new s).sections := rfl
  have hsrc : (Ini.new s).source = s := rfl
  unfold Ini.get_in
  rw [hidx, hsrc, index_get_build]
  by_cases hps : positions_from s (Ini.new s).sections 0 (ascii_lower sk) = []
  · rw [hps]
    rfl
  · rw [(opt_list_eq_some).2 ⟨rfl, hps⟩]
    exact v_get_eq_lmv s pk (Ini.new s).sections _

/-! ## Machinery for the section-index invariant (C8) -/

theorem sorted_lt_ext : ∀ {l1 l2 : List Nat}, List.Pairwise (· < ·) l1 →
    List.Pairwise (· < ·) l2 → (∀ x, x ∈ l1 ↔ x ∈ l2) → l1 = l2 := by
  intro l1
  induction l1 with
  | nil =>
    intro l2 _ _ hm
    cases l2 with
    | nil => rfl
    | cons b bs => exact absurd ((hm b).2 (by simp)) (List.not_mem_nil b)
  | cons a as ih =>
    intro l2 h1 h2 hm
    cases l2 with
    | nil => exact absurd ((hm a).1 (by simp)) (List.not_mem_nil a)
    | cons b bs =>
      obtain ⟨ha1, has⟩ := List.pairwise_cons.1 h1
      obtain ⟨hb1, hbs⟩ := List.pairwise_cons.1 h2
      have hab : a = b := by
        have ha2 : a ∈ b :: bs := (hm a).1 (by simp)
        have hb2 : b ∈ a :: as := (hm b).2 (by simp)
        rcases List.mem_cons.1 ha2 with h | h
        · exact h
        · rcases List.mem_cons.1 hb2 with h' | h'
          · exact h'.symm
          · have hx := ha1 b h'
            have hy := hb1 a h
            omega
      subst hab
      have htail : as = bs := by
        apply ih has hbs
        intro x
        constructor
        · intro hx
          rcases List.mem_cons.1 ((hm x).1 (List.mem_cons_of_mem a hx)) with h | h
          · have := ha1 x hx
            omega
          · exact h
        · intro hx
          rcases List.mem_cons.1 ((hm x).2 (List.mem_cons_of_mem a hx)) with h | h
          · have := hb1 x hx
            omega
          · exact h
      rw [htail]

theorem set_apply_get? (f : ConcreteSection → ConcreteSection) :
    ∀ (secs : List ConcreteSection) (i j : Nat),
    (secs.set i (f (secAt secs i))).get? j
      = if j = i then (secs.get? j).map f else secs.get? j := by
  intro secs
  induction secs with
  | nil =>
    intro i j
    simp
  | cons a as ih =>
    intro i j
    cases i with
    | zero =>
      cases j with
      | zero => simp [secAt]
      | succ j' => simp
    | succ i' =>
      cases j with
      | zero => simp
      | succ j' =>
        have hsec : secAt (a :: as) (i' + 1) = secAt as i' := by simp [secAt]
        simp only [List.set_cons_succ, List.get?_cons_succ, hsec]
        rw [ih i' j']
        by_cases hji : j' = i'
        · rw [if_pos hji, if_pos (by omega)]
        · rw [if_neg hji, if_neg (by omega)]

theorem v_fold_get? (f : ConcreteSection → ConcreteSection) :
    ∀ (idxs : List Nat) (secs : List ConcreteSection), idxs.Nodup → ∀ j,
      ((idxs.foldl (fun ss i => ss.set i (f (secAt ss i))) secs).get? j)
        = if j ∈ idxs then (secs.get? j).map f else secs.get? j := by
  intro idxs
  induction idxs with
  | nil =>
    intro secs _ j
    simp
  | cons i rest ih =>
    intro secs hnd j
    obtain ⟨hni, hnd'⟩ := List.nodup_cons.1 hnd
    rw [List.foldl_cons, ih _ hnd' j]
    by_cases hj : j ∈ rest
    · rw [if_pos hj, if_pos (by simp [hj])]
      rw [set_apply_get?, if_neg (fun hc : j = i => hni (hc ▸ hj))]
    · rw [if_neg hj, set_apply_get?]
      by_cases hji : j = i
      · rw [if_pos hji, if_pos (by simp [hji])]
      · rw [if_neg hji, if_neg (by simp [hji, hj])]

theorem positions_from_bounds (src k : Str) :
    ∀ (secs : List ConcreteSection) (i p : Nat),
      p ∈ positions_from src secs i k → i ≤ p ∧ p < i + secs.length := by
  intro secs
  induction secs with
  | nil =>
    intro i p hp
    simp [positions_from] at hp
  | cons sec rest ih =>
    intro i p hp
    simp only [positions_from, List.mem_append] at hp
    rcases hp with hp | hp
    · by_cases hc : ascii_lower (ConcreteSection.key src sec) = k
      · rw [if_pos hc] at hp
        simp at hp
        subst hp
        simp [List.length_cons]
      · rw [if_neg hc] at hp
        simp at hp
    · have := ih (i + 1) p hp
      simp only [List.length_cons]
      omega

theorem positions_from_pairwise (src k : Str) :
    ∀ (secs : List ConcreteSection) (i : Nat),
      List.Pairwise (· < ·) (positions_from src secs i k) := by
  intro secs
  induction secs with
  | nil =>
    intro i
    simp [positions_from]
  | cons sec rest ih =>
    intro i
    simp only [positions_from]
    by_cases hc : ascii_lower (ConcreteSection.key src sec) = k
    · rw [if_pos hc]
      rw [List.singleton_append, List.pairwise_cons]
      refine ⟨fun p hp => ?_, ih (i + 1)⟩
      have := positions_from_bounds src k rest (i + 1) p hp
      omega
    · rw [if_neg hc]
      simpa using ih (i + 1)

theorem positions_from_mem (src k : Str) :
    ∀ (secs : List ConcreteSection) (i p : Nat),
      p ∈ positions_from src secs i k ↔
        (i ≤ p ∧ ∃ sec, secs.get? (p - i) = some sec ∧
          ascii_lower (ConcreteSection.key src sec) = k) := by
  intro secs
  induction secs with
  | nil =>
    intro i p
    simp [positions_from]
  | cons sec rest ih =>
    intro i p
    simp only [positions_from, List.mem_append]
    constructor
    · intro h
      rcases h with h | h
      · by_cases hc : ascii_lower (ConcreteSection.key src sec) = k
        · rw [if_pos hc] at h
          simp at h
          subst h
          exact ⟨Nat.le_refl p, sec, by simp, hc⟩
        · rw [if_neg hc] at h
          simp at h
      · obtain ⟨hip, sec', hs', hk'⟩ := (ih (i + 1) p).1 h
        refine ⟨by omega, sec', ?_, hk'⟩
        have hpi : p - i = (p - (i + 1)) + 1 := by omega
        rw [hpi]
        simpa using hs'
    · rintro ⟨hip, sec', hs', hk'⟩
      by_cases hpi : p = i
      · subst hpi
        left
        rw [Nat.sub_self] at hs'
        simp at hs'
        subst hs'
        rw [if_pos hk']
        simp
      · right
        apply (ih (i + 1) p).2
        refine ⟨by omega, sec', ?_, hk'⟩
        have h2 : p - i = (p - (i + 1)) + 1 := by omega
        rw [h2] at hs'
        simpa using hs'

theorem positions_from_append (src k : Str) (xs ys : List ConcreteSection) :
    ∀ i, positions_from src (xs ++ ys) i k
      = positions_from src xs i k ++ positions_from src ys (i + xs.length) k := by
  induction xs with
  | nil =>
    intro i
    simp [positions_from]
  | cons x xs' ih =>
    intro i
    simp only [List.cons_append, positions_from, List.append_eq, ih (i + 1)]
    rw [List.append_assoc]
    have hlen : i + (x :: xs').length = i + 1 + xs'.length := by
      simp only [List.length_cons]
      omega
    rw [hlen]

theorem positions_from_of_map_eq {src : Str} {secs secs' : List ConcreteSection}
    (h : secs.map (fun sec => ascii_lower (ConcreteSection.key src sec))
       = secs'.map (fun sec => ascii_lower (ConcreteSection.key src sec))) :
    ∀ i k, positions_from src secs i k = positions_from src secs' i k := by
  induction secs generalizing secs' with
  | nil =>
    cases secs' with
    | nil =>
      intro i k
      rfl
    | cons b bs => simp at h
  | cons a as ih =>
    cases secs' with
    | nil => simp at h
    | cons b bs =>
      simp only [List.map_cons, List.cons.injEq] at h
      intro i k
      simp only [positions_from, h.1, ih h.2]

theorem index_get_insert (idx : Index) (kI : Str) (v : List Nat) (k : Str) :
    index_get (index_insert idx kI v) k = if k = kI then some v else index_get idx k := by
  induction idx with
  | nil =>
    by_cases h : k = kI
    · subst h
      simp [index_insert, index_get]
    · have h' : ¬ kI = k := fun hc => h hc.symm
      simp [index_insert, index_get, h, h']
  | cons e rest ih =>
    obtain ⟨ke, ve⟩ := e
    by_cases he : ke = kI
    · subst he
      by_cases h : ke = k
      · subst h
        simp [index_insert, index_get]
      · have h' : ¬ k = ke := fun hc => h hc.symm
        simp [index_insert, index_get, h, h']
    · by_cases h : ke = k
      · subst h
        have h' : ¬ ke = kI := he
        simp [index_insert, index_get, he, h']
      · have h' : ¬ k = ke := fun hc => h hc.symm
        simp [index_insert, index_get, he, h, h', ih]

theorem index_get_remove (idx : Index) (kR k : Str) :
    index_get (idx.filter (fun e => ¬ e.1 = kR)) k
      = if k = kR then none else index_get idx k := by
  induction idx with
  | nil =>
    by_cases h : k = kR <;> simp [index_get, h]
  | cons e rest ih =>
    obtain ⟨ke, ve⟩ := e
    by_cases he : ke = kR
    · subst he
      by_cases h : k = ke
      · subst h
        simp only [if_pos rfl] at ih
        simp [List.filter_cons, index_get]
        simp at ih
        exact ih
      · have h2 : ¬ k = ke := h
        have h3 : ¬ ke = k := fun hc => h2 hc.symm
        simp only [if_neg h2] at ih
        simp [List.filter_cons, index_get, h3, h2]
        simp at ih
        exact ih
    · by_cases h : k = ke
      · subst h
        have h2 : ¬ k = kR := fun hc => he hc
        simp [List.filter_cons, index_get, he, h2]
      · have h2 : ¬ ke = k := fun hc => h hc.symm
        simp [List.filter_cons, index_get, he, h2]
        simp at ih
        exact ih

/-! ## Key and header preservation of the section mutators (C8) -/

theorem set_last_section_cons (src k v : Str) (kk : Span) (pp : Padding) (rest : List Item) :
    set_last src k v (Item.Section kk pp :: rest)
      = (set_last src k v rest).map (fun r => Item.Section kk pp :: r) := by
  simp only [set_last]
  cases set_last src k v rest <;> rfl

theorem key_set_last (src2 src k v : Str) :
    ∀ {items items' : List Item}, set_last src k v items = some items' →
      ConcreteSection.key src2 ⟨items'⟩ = ConcreteSection.key src2 ⟨items⟩ := by
  intro items
  induction items with
  | nil =>
    intro items' h
    cases h
  | cons it rest ih =>
    intro items' h
    simp only [set_last] at h
    cases hsl : set_last src k v rest with
    | some rest' =>
      rw [hsl] at h
      dsimp only at h
      injection h with h
      subst h
      cases it <;> rfl
    | none =>
      rw [hsl] at h
      cases it with
      | Property p pad =>
        dsimp only at h
        by_cases hc : eq_ignore_ascii_case (p.key.of src) k = true
        · rw [if_pos hc] at h
          injection h with h
          subst h
          rfl
        · rw [if_neg hc] at h
          cases h
      | Error sp => dsimp only at h; cases h
      | Section kk pp => dsimp only at h; cases h
      | Comment cc pp => dsimp only at h; cases h
      | Blank sp => dsimp only at h; cases h

theorem key_of_set (src2 src k v : Str) (s : ConcreteSection) :
    ConcreteSection.key src2 (s.set src k v) = ConcreteSection.key src2 s := by
  obtain ⟨items⟩ := s
  unfold ConcreteSection.set
  cases hsl : set_last src k v items with
  | some items' => exact key_set_last src2 src k v hsl
  | none =>
    cases items with
    | nil => rfl
    | cons it rest => cases it <;> rfl

theorem key_of_replace (src2 src k v : Str) (s : ConcreteSection) :
    ConcreteSection.key src2 (s.replace src k v).2 = ConcreteSection.key src2 s := by
  obtain ⟨items⟩ := s
  unfold ConcreteSection.replace
  cases hsl : set_last src k v items with
  | some items' => exact key_set_last src2 src k v hsl
  | none => rfl

theorem remove_items_cons_section (src k : Str) (kk : Span) (pp : Padding)
    (rest : List Item) :
    (ConcreteSection.mk (Item.Section kk pp :: rest)).remove src k
      = ⟨Item.Section kk pp :: ((ConcreteSection.mk rest).remove src k).items⟩ := by
  simp [ConcreteSection.remove, List.filter_cons]

theorem rename_items_cons_section (src fk tk : Str) (kk : Span) (pp : Padding)
    (rest : List Item) :
    (ConcreteSection.mk (Item.Section kk pp :: rest)).rename src fk tk
      = ⟨Item.Section kk pp :: ((ConcreteSection.mk rest).rename src fk tk).items⟩ := by
  simp [ConcreteSection.rename, ConcreteSection.remove, List.filter_cons]

theorem key_of_remove (src2 src k : Str) (s : ConcreteSection) (h : has_header s) :
    ConcreteSection.key src2 (s.remove src k) = ConcreteSection.key src2 s := by
  obtain ⟨items⟩ := s
  obtain ⟨kk, pp, rest, hitems⟩ := h
  simp only at hitems
  subst hitems
  rw [remove_items_cons_section]
  rfl

theorem hdr_of_remove (src k : Str) (s : ConcreteSection) (h : has_header s) :
    has_header (s.remove src k) := by
  obtain ⟨items⟩ := s
  obtain ⟨kk, pp, rest, hitems⟩ := h
  simp only at hitems
  subst hitems
  rw [remove_items_cons_section]
  exact ⟨kk, pp, _, rfl⟩

theorem key_of_rename (src2 src fk tk : Str) (s : ConcreteSection) (h : has_header s) :
    ConcreteSection.key src2 (s.rename src fk tk) = ConcreteSection.key src2 s := by
  obtain ⟨items⟩ := s
  obtain ⟨kk, pp, rest, hitems⟩ := h
  simp only at hitems
  subst hitems
  rw [rename_items_cons_section]
  rfl

theorem hdr_of_rename (src fk tk : Str) (s : ConcreteSection) (h : has_header s) :
    has_header (s.rename src fk tk) := by
  obtain ⟨items⟩ := s
  obtain ⟨kk, pp, rest, hitems⟩ := h
  simp only at hitems
  subst hitems
  rw [rename_items_cons_section]
  exact ⟨kk, pp, _, rfl⟩

theorem key_of_set_key (src2 t : Str) (s : ConcreteSection) (h : has_header s) :
    ConcreteSection.key src2 (s.set_key t) = t := by
  obtain ⟨items⟩ := s
  obtain ⟨kk, pp, rest, hitems⟩ := h
  simp only at hitems
  subst hitems
  simp [ConcreteSection.set_key, ConcreteSection.key, Span.of]

theorem hdr_of_set_key (t : Str) (s : ConcreteSection) (h : has_header s) :
    has_header (s.set_key t) := by
  obtain ⟨items⟩ := s
  obtain ⟨kk, pp, rest, hitems⟩ := h
  simp only at hitems
  subst hitems
  exact ⟨Span.Owned t, pp, rest, rfl⟩

theorem hdr_set_last (src k v : Str) {items items' : List Item}
    (hsl : set_last src k v items = some items') (h : has_header ⟨items⟩) :
    has_header ⟨items'⟩ := by
  obtain ⟨kk, pp, rest, hitems⟩ := h
  simp only at hitems
  subst hitems
  rw [set_last_section_cons] at hsl
  obtain ⟨r', _, hr'⟩ := Option.map_eq_some'.1 hsl
  exact ⟨kk, pp, r', hr'.symm⟩

theorem hdr_of_set (src k v : Str) (s : ConcreteSection) (h : has_header s) :
    has_header (s.set src k v) := by
  obtain ⟨items⟩ := s
  unfold ConcreteSection.set
  cases hsl : set_last src k v items with
  | some items' => exact hdr_set_last src k v hsl h
  | none =>
    obtain ⟨kk, pp, rest, hitems⟩ := h
    simp only at hitems
    subst hitems
    exact ⟨kk, pp, rest ++ [default_prop k v], by simp⟩

theorem hdr_of_replace (src k v : Str) (s : ConcreteSection) (h : has_header s) :
    has_header (s.replace src k v).2 := by
  obtain ⟨items⟩ := s
  unfold ConcreteSection.replace
  cases hsl : set_last src k v items with
  | some items' => exact hdr_set_last src k v hsl h
  | none => exact h

/-! ## Fold characterizations for the virtual-section mutators (C8) -/

theorem map_key_of_get? (g : ConcreteSection → Str) {secs secs' : List ConcreteSection}
    (h : ∀ j, (secs'.get? j).map g = (secs.get? j).map g) :
    secs'.map g = secs.map g := by
  apply List.ext_get?
  intro n
  rw [List.get?_map, List.get?_map, h n]

theorem set_apply_map_g (g : ConcreteSection → Str) (f : ConcreteSection → ConcreteSection)
    (secs : List ConcreteSection) (i : Nat)
    (hf : ∀ sec ∈ secs, g (f sec) = g sec) :
    (secs.set i (f (secAt secs i))).map g = secs.map g := by
  apply map_key_of_get?
  intro j
  rw [set_apply_get?]
  by_cases hji : j = i
  · rw [if_pos hji]
    cases hg : secs.get? j with
    | none => rfl
    | some sec =>
      simp only [Option.map_some']
      rw [hf sec (List.get?_mem hg)]
  · rw [if_neg hji]

theorem set_apply_headers (f : ConcreteSection → ConcreteSection)
    (hf : ∀ sec, has_header sec → has_header (f sec))
    (secs : List ConcreteSection) (hh : ∀ sec ∈ secs, has_header sec) (i : Nat) :
    ∀ sec' ∈ secs.set i (f (secAt secs i)), has_header sec' := by
  intro sec' hmem
  obtain ⟨j, hj⟩ := List.get?_of_mem hmem
  rw [set_apply_get? f secs i j] at hj
  by_cases hji : j = i
  · rw [if_pos hji] at hj
    cases hg : secs.get? j with
    | none =>
      rw [hg] at hj
      cases hj
    | some sec =>
      rw [hg] at hj
      simp at hj
      subst hj
      exact hf sec (hh sec (List.get?_mem hg))
  · rw [if_neg hji] at hj
    exact hh sec' (List.get?_mem hj)

theorem v_fold_headers (f : ConcreteSection → ConcreteSection)
    (hf : ∀ sec, has_header sec → has_header (f sec)) :
    ∀ (idxs : List Nat) (secs : List ConcreteSection),
      (∀ sec ∈ secs, has_header sec) →
      ∀ sec' ∈ idxs.foldl (fun ss i => ss.set i (f (secAt ss i))) secs, has_header sec' := by
  intro idxs
  induction idxs with
  | nil =>
    intro secs hh
    exact hh
  | cons i rest ih =>
    intro secs hh
    rw [List.foldl_cons]
    exact ih _ (set_apply_headers f hf secs hh i)

theorem v_fold_map_g (g : ConcreteSection → Str) (f : ConcreteSection → ConcreteSection)
    (hf : ∀ sec, has_header sec → g (f sec) = g sec)
    (hfh : ∀ sec, has_header sec → has_header (f sec)) :
    ∀ (idxs : List Nat) (secs : List ConcreteSection),
      (∀ sec ∈ secs, has_header sec) →
      (idxs.foldl (fun ss i => ss.set i (f (secAt ss i))) secs).map g = secs.map g := by
  intro idxs
  induction idxs with
  | nil =>
    intro secs _
    rfl
  | cons i rest ih =>
    intro secs hh
    rw [List.foldl_cons, ih _ (set_apply_headers f hfh secs hh i),
      set_apply_map_g g f secs i (fun sec hm => hf sec (hh sec hm))]

/-! ## `v_set` preserves keys and headers -/

theorem v_set_go_map_g (g : ConcreteSection → Str)
    (hset : ∀ sec src k v, g (ConcreteSection.set src k v sec) = g sec)
    (hrep : ∀ sec src k v, g ((ConcreteSection.replace src k v sec).2) = g sec)
    (src k v : Str) (first : Option Nat) :
    ∀ (rest : List Nat) (secs : List ConcreteSection),
      (v_set_go src k v first secs rest).map g = secs.map g := by
  intro rest
  induction rest with
  | nil =>
    intro secs
    cases first with
    | none => rfl
    | some i0 =>
      exact set_apply_map_g g (fun sec => sec.set src k v) secs i0
        (fun sec _ => hset sec src k v)
  | cons i rest' ih =>
    intro secs
    simp only [v_set_go]
    cases hr : (secAt secs i).replace src k v with
    | mk fst snd =>
      cases fst with
      | none =>
        have hsnd : snd = ((secAt secs i).replace src k v).2 := by rw [hr]
        subst hsnd
        exact set_apply_map_g g (fun sec => (sec.replace src k v).2) secs i
          (fun sec _ => hrep sec src k v)
      | some w => exact ih secs

theorem v_set_go_headers (src k v : Str) (first : Option Nat) :
    ∀ (rest : List Nat) (secs : List ConcreteSection),
      (∀ sec ∈ secs, has_header sec) →
      ∀ sec' ∈ v_set_go src k v first secs rest, has_header sec' := by
  intro rest
  induction rest with
  | nil =>
    intro secs hh
    cases first with
    | none => exact hh
    | some i0 =>
      exact set_apply_headers (fun sec => sec.set src k v)
        (fun sec hs => hdr_of_set src k v sec hs) secs hh i0
  | cons i rest' ih =>
    intro secs hh
    simp only [v_set_go]
    cases hr : (secAt secs i).replace src k v with
    | mk fst snd =>
      cases fst with
      | none =>
        have hsnd : snd = ((secAt secs i).replace src k v).2 := by rw [hr]
        subst hsnd
        exact set_apply_headers (fun sec => (sec.replace src k v).2)
          (fun sec hs => hdr_of_replace src k v sec hs) secs hh i
      | some w => exact ih secs hh

/-! ## Headers of the sections produced by `Ini::new` -/

theorem hdr_push (s : ConcreteSection) (x : Item) (h : has_header s) :
    has_header ⟨s.items ++ [x]⟩ := by
  obtain ⟨kk, pp, r0, hs⟩ := h
  exact ⟨kk, pp, r0 ++ [x], by rw [hs]; simp⟩

theorem part_step_snd (g : ConcreteSection) (secs : List ConcreteSection) (it : Item)
    (hns : ∀ k p, it ≠ Item.Section k p) :
    (part_step (g, secs) it).2 =
      match secs with
      | [] => []
      | s :: ss => ⟨s.items ++ [it]⟩ :: ss := by
  cases it with
  | Section k p => exact absurd rfl (hns k p)
  | Error sp => cases secs <;> rfl
  | Property p pad => cases secs <;> rfl
  | Comment c p => cases secs <;> rfl
  | Blank sp => cases secs <;> rfl

theorem part_step_headers (g : ConcreteSection) (secs : List ConcreteSection) (it : Item)
    (h : ∀ sec ∈ secs, has_header sec) :
    ∀ sec ∈ (part_step (g, secs) it).2, has_header sec := by
  by_cases hS : ∃ k p, it = Item.Section k p
  · obtain ⟨k, p, rfl⟩ := hS
    intro sec hsec
    simp only [part_step] at hsec
    rcases List.mem_cons.1 hsec with h1 | h1
    · subst h1
      exact ⟨k, p, [], rfl⟩
    · exact h sec h1
  · rw [part_step_snd g secs it (fun k p hc => hS ⟨k, p, hc⟩)]
    cases secs with
    | nil =>
      intro sec hsec
      exact absurd hsec (List.not_mem_nil sec)
    | cons s ss =>
      intro sec hsec
      rcases List.mem_cons.1 hsec with h1 | h1
      · subst h1
        exact hdr_push s it (h s (by simp))
      · exact h sec (by simp [h1])

theorem part_fold_headers (items : List Item) :
    ∀ (acc : ConcreteSection × List ConcreteSection),
      (∀ sec ∈ acc.2, has_header sec) →
      ∀ sec ∈ (items.foldl part_step acc).2, has_header sec := by
  induction items with
  | nil =>
    intro acc h
    exact h
  | cons it rest ih =>
    intro acc h
    rw [List.foldl_cons]
    obtain ⟨g, secs⟩ := acc
    exact ih (part_step (g, secs) it) (part_step_headers g secs it h)

/-! ## The well-formedness invariant across operations (C8) -/

theorem WF_new (s : Str) : IniWF (Ini.new s) := by
  constructor
  · intro sec hsec
    have hrev : sec ∈ ((parse_items s).foldl part_step (⟨[]⟩, [])).2 :=
      List.mem_reverse.1 hsec
    exact part_fold_headers (parse_items s) (⟨[]⟩, [])
      (fun sec h => absurd h (List.not_mem_nil sec)) sec hrev
  · intro k
    exact index_get_build s (Ini.new s).sections k

theorem WF_append (d : Ini) (k : Str) (h : IniWF d) : IniWF (d.append_section k).1 := by
  obtain ⟨hh, hc⟩ := h
  simp only [Ini.append_section]
  cases hg : index_get d.section_index (ascii_lower k) with
  | some idxs => exact ⟨hh, hc⟩
  | none =>
    constructor
    · intro sec hsec
      rcases List.mem_append.1 hsec with h1 | h1
      · exact hh sec h1
      · simp at h1
        subst h1
        exact ⟨Span.Owned k, ⟨Span.Owned [], Span.Owned ['\n']⟩, [], rfl⟩
    · intro k'
      show index_get (index_insert d.section_index (ascii_lower k) _) k' = _
      rw [index_get_insert, positions_from_append]
      by_cases hk' : k' = ascii_lower k
      · rw [if_pos hk']
        subst hk'
        have hps : positions_from d.source d.sections 0 (ascii_lower k) = [] := by
          have hx := hc (ascii_lower k)
          rw [hg] at hx
          exact opt_list_eq_none.1 hx.symm
        rw [hps, List.nil_append]
        have hkey : ascii_lower (ConcreteSection.key d.source
            ⟨[Item.Section (Span.Owned k) ⟨Span.Owned [], Span.Owned ['\n']⟩]⟩)
            = ascii_lower k := rfl
        simp only [positions_from, hkey, if_pos rfl, List.append_nil, Nat.zero_add]
        rw [opt_list_eq_some.2 ⟨rfl, by simp⟩]
        have hlen : (d.sections ++ [(⟨[Item.Section (Span.Owned k)
            ⟨Span.Owned [], Span.Owned ['\n']⟩]⟩ : ConcreteSection)]).length - 1
            = d.sections.length := by
          simp
        rw [hlen]
        simp
      · rw [if_neg hk', hc k']
        have hnil : positions_from d.source
            [(⟨[Item.Section (Span.Owned k) ⟨Span.Owned [], Span.Owned ['\n']⟩]⟩ :
              ConcreteSection)] (0 + d.sections.length) k' = [] := by
          simp only [positions_from]
          rw [if_neg (fun hc2 => hk' hc2.symm)]
          rfl
        rw [hnil, List.append_nil]

theorem WF_remove_section (d : Ini) (k : Str) (h : IniWF d) : IniWF (d.remove_section k) := by
  obtain ⟨hh, hc⟩ := h
  unfold Ini.remove_section
  by_cases hhas : d.has_section k
  · rw [if_pos hhas]
    constructor
    · intro sec hsec
      exact hh sec (List.mem_of_mem_filter hsec)
    · intro k'
      exact index_get_build _ _ k'
  · rw [if_neg hhas]
    exact ⟨hh, hc⟩

theorem v_remove_as_fold (src k : Str) (secs : List ConcreteSection) (idxs : List Nat) :
    v_remove src k secs idxs
      = idxs.foldl (fun ss i =>
          ss.set i ((fun sec => ConcreteSection.remove src k sec) (secAt ss i))) secs := rfl

theorem v_rename_as_fold (src fk tk : Str) (secs : List ConcreteSection) (idxs : List Nat) :
    v_rename src fk tk secs idxs
      = idxs.foldl (fun ss i =>
          ss.set i ((fun sec => ConcreteSection.rename src fk tk sec) (secAt ss i))) secs := rfl

theorem v_set_key_as_fold (tk : Str) (secs : List ConcreteSection) (idxs : List Nat) :
    v_set_key tk secs idxs
      = idxs.foldl (fun ss i =>
          ss.set i ((fun sec => ConcreteSection.set_key tk sec) (secAt ss i))) secs := rfl

theorem WF_set_in (d : Ini) (sk pk v : Str) (h : IniWF d) : IniWF (d.set_in sk pk v) := by
  have hap := WF_append d sk h
  obtain ⟨hh1, hc1⟩ := hap
  simp only [Ini.set_in]
  constructor
  · intro sec hsec
    exact v_set_go_headers (d.append_section sk).1.source pk v _ _ _ hh1 sec hsec
  · intro k'
    show index_get (d.append_section sk).1.section_index k' = _
    rw [hc1 k']
    congr 1
    apply positions_from_of_map_eq ?_ 0 k'
    exact (v_set_go_map_g
      (fun sec => ascii_lower (ConcreteSection.key (d.append_section sk).1.source sec))
      (fun sec src2 k2 v2 => by dsimp only; rw [key_of_set])
      (fun sec src2 k2 v2 => by dsimp only; rw [key_of_replace])
      (d.append_section sk).1.source pk v _ _ _).symm

theorem WF_remove_in (d : Ini) (sk pk : Str) (h : IniWF d) : IniWF (d.remove_in sk pk) := by
  obtain ⟨hh, hc⟩ := h
  unfold Ini.remove_in
  cases hg : index_get d.section_index (ascii_lower sk) with
  | none => exact ⟨hh, hc⟩
  | some idxs =>
    dsimp only
    constructor
    · intro sec hsec
      rw [v_remove_as_fold] at hsec
      exact v_fold_headers _ (fun sec2 hs => hdr_of_remove d.source pk sec2 hs)
        idxs d.sections hh sec hsec
    · intro k'
      rw [hc k']
      congr 1
      apply positions_from_of_map_eq ?_ 0 k'
      rw [v_remove_as_fold]
      exact (v_fold_map_g
        (fun sec => ascii_lower (ConcreteSection.key d.source sec))
        (fun sec => ConcreteSection.remove d.source pk sec)
        (fun sec2 hs => by dsimp only; rw [key_of_remove d.source d.source pk sec2 hs])
        (fun sec2 hs => hdr_of_remove d.source pk sec2 hs)
        idxs d.sections hh).symm

theorem WF_rename_in (d : Ini) (sk fk tk : Str) (h : IniWF d) : IniWF (d.rename_in sk fk tk) := by
  obtain ⟨hh, hc⟩ := h
  unfold Ini.rename_in
  cases hg : index_get d.section_index (ascii_lower sk) with
  | none => exact ⟨hh, hc⟩
  | some idxs =>
    dsimp only
    constructor
    · intro sec hsec
      rw [v_rename_as_fold] at hsec
      exact v_fold_headers _ (fun sec2 hs => hdr_of_rename d.source fk tk sec2 hs)
        idxs d.sections hh sec hsec
    · intro k'
      rw [hc k']
      congr 1
      apply positions_from_of_map_eq ?_ 0 k'
      rw [v_rename_as_fold]
      exact (v_fold_map_g
        (fun sec => ascii_lower (ConcreteSection.key d.source sec))
        (fun sec => ConcreteSection.rename d.source fk tk sec)
        (fun sec2 hs => by dsimp only; rw [key_of_rename d.source d.source fk tk sec2 hs])
        (fun sec2 hs => hdr_of_rename d.source fk tk sec2 hs)
        idxs d.sections hh).symm

theorem WF_rename_section (d : Ini) (fk tk : Str) (h : IniWF d) :
    IniWF (d.rename_section fk tk) := by
  have hWF1 : IniWF (d.remove_section (ascii_lower tk)) := WF_remove_section d _ h
  obtain ⟨hh1, hc1⟩ := hWF1
  have hnone := remove_section_index_none d (ascii_lower tk)
  rw [ascii_lower_idem] at hnone
  have hlt_empty : positions_from (d.remove_section (ascii_lower tk)).source
      (d.remove_section (ascii_lower tk)).sections 0 (ascii_lower tk) = [] := by
    have hx := hc1 (ascii_lower tk)
    rw [hnone] at hx
    exact opt_list_eq_none.1 hx.symm
  simp only [Ini.rename_section, index_remove]
  cases hif : index_get (d.remove_section (ascii_lower tk)).section_index (ascii_lower fk) with
  | none => exact ⟨hh1, hc1⟩
  | some idxs =>
    dsimp only
    have hx := hc1 (ascii_lower fk)
    rw [hif] at hx
    obtain ⟨heq, hne⟩ := opt_list_eq_some.1 hx.symm
    set D1 := d.remove_section (ascii_lower tk) with hD1
    have hpw_idxs : List.Pairwise (· < ·) idxs := by
      rw [← heq]
      exact positions_from_pairwise D1.source (ascii_lower fk) D1.sections 0
    have hnd : idxs.Nodup := hpw_idxs.imp (fun hab => Nat.ne_of_lt hab)
    constructor
    · intro sec hsec
      rw [v_set_key_as_fold] at hsec
      exact v_fold_headers _ (fun sec2 hs => hdr_of_set_key tk sec2 hs)
        idxs D1.sections hh1 sec hsec
    · intro k'
      show index_get (index_insert (D1.section_index.filter (fun e => ¬ e.1 = ascii_lower fk))
        (ascii_lower tk) idxs) k' = opt_list (positions_from D1.source
          (v_set_key tk D1.sections idxs) 0 k')
      rw [index_get_insert]
      have hmem2 : ∀ p, p ∈ positions_from D1.source (v_set_key tk D1.sections idxs) 0 k' ↔
          ((p ∈ idxs ∧ k' = ascii_lower tk) ∨
            (p ∈ positions_from D1.source D1.sections 0 k' ∧ p ∉ idxs)) := by
        intro p
        rw [positions_from_mem]
        constructor
        · rintro ⟨-, sec2, hget, hkey⟩
          rw [Nat.sub_zero, v_set_key_as_fold, v_fold_get? _ idxs D1.sections hnd p] at hget
          by_cases hp : p ∈ idxs
          · rw [if_pos hp] at hget
            obtain ⟨sec, hsec, hsec2⟩ := Option.map_eq_some'.1 hget
            left
            refine ⟨hp, ?_⟩
            have hhd : has_header sec := hh1 sec (List.get?_mem hsec)
            rw [← hkey, ← hsec2]
            rw [key_of_set_key D1.source tk sec hhd]
          · rw [if_neg hp] at hget
            right
            refine ⟨?_, hp⟩
            rw [positions_from_mem]
            exact ⟨Nat.zero_le p, sec2, by rw [Nat.sub_zero]; exact hget, hkey⟩
        · rintro (⟨hp, hk⟩ | ⟨hp, hnp⟩)
          · have hp' := hp
            rw [← heq, positions_from_mem] at hp'
            obtain ⟨-, sec, hget, hkey⟩ := hp'
            rw [Nat.sub_zero] at hget
            have hhd : has_header sec := hh1 sec (List.get?_mem hget)
            refine ⟨Nat.zero_le p, sec.set_key tk, ?_, ?_⟩
            · rw [Nat.sub_zero, v_set_key_as_fold, v_fold_get? _ idxs D1.sections hnd p,
                if_pos hp, hget]
              rfl
            · rw [key_of_set_key D1.source tk sec hhd, hk]
          · rw [positions_from_mem] at hp
            obtain ⟨-, sec, hget, hkey⟩ := hp
            rw [Nat.sub_zero] at hget
            refine ⟨Nat.zero_le p, sec, ?_, hkey⟩
            rw [Nat.sub_zero, v_set_key_as_fold, v_fold_get? _ idxs D1.sections hnd p,
              if_neg hnp, hget]
      by_cases hk1 : k' = ascii_lower tk
      · rw [if_pos hk1]
        have hpos2 : positions_from D1.source (v_set_key tk D1.sections idxs) 0 k' = idxs := by
          apply sorted_lt_ext (positions_from_pairwise D1.source k' _ 0) hpw_idxs
          intro x
          rw [hmem2 x]
          constructor
          · rintro (⟨hx1, -⟩ | ⟨hx1, hx2⟩)
            · exact hx1
            · rw [hk1, hlt_empty] at hx1
              exact absurd hx1 (List.not_mem_nil x)
          · intro hx
            exact Or.inl ⟨hx, hk1⟩
        rw [hpos2, opt_list_eq_some.2 ⟨rfl, hne⟩]
      · rw [if_neg hk1, index_get_remove]
        by_cases hk2 : k' = ascii_lower fk
        · rw [if_pos hk2]
          have hpos2 : positions_from D1.source (v_set_key tk D1.sections idxs) 0 k' = [] := by
            apply sorted_lt_ext (positions_from_pairwise D1.source k' _ 0) List.Pairwise.nil
            intro x
            simp only [List.not_mem_nil, iff_false]
            rw [hmem2 x]
            rintro (⟨-, hx2⟩ | ⟨hx1, hx2⟩)
            · exact hk1 hx2
            · rw [hk2, heq] at hx1
              exact hx2 hx1
          rw [hpos2]
          simp [opt_list]
        · rw [if_neg hk2, hc1 k']
          congr 1
          apply sorted_lt_ext (positions_from_pairwise D1.source k' _ 0)
            (positions_from_pairwise D1.source k' _ 0)
          intro x
          rw [hmem2 x]
          constructor
          · intro hx
            right
            refine ⟨hx, ?_⟩
            intro hxi
            rw [positions_from_mem] at hx
            obtain ⟨-, sec, hget, hkey⟩ := hx
            have hxi' := hxi
            rw [← heq, positions_from_mem] at hxi'
            obtain ⟨-, sec', hget', hkey'⟩ := hxi'
            rw [Nat.sub_zero] at hget hget'
            rw [hget] at hget'
            injection hget' with hget'
            subst hget'
            exact hk2 (hkey ▸ hkey')
          · rintro (⟨-, hx2⟩ | ⟨hx1, -⟩)
            · exact absurd hx2 hk1
            · exact hx1

theorem WF_facets (d : Ini) (k : Str) (ps : List Nat) (h : IniWF d)
    (hget : index_get d.section_index k = some ps) :
    (∀ p ∈ ps, p < d.sections.length) ∧
    (∀ p, p ∈ ps ↔ ∃ sec, d.sections.get? p = some sec ∧
      ascii_lower (ConcreteSection.key d.source sec) = k) ∧
    List.Pairwise (· < ·) ps := by
  have hx := h.2 k
  rw [hget] at hx
  obtain ⟨heq, -⟩ := opt_list_eq_some.1 hx.symm
  subst heq
  refine ⟨?_, ?_, positions_from_pairwise d.source k d.sections 0⟩
  · intro p hp
    have := positions_from_bounds d.source k d.sections 0 p hp
    omega
  · intro p
    rw [positions_from_mem]
    constructor
    · rintro ⟨-, sec, hg, hk⟩
      rw [Nat.sub_zero] at hg
      exact ⟨sec, hg, hk⟩
    · rintro ⟨sec, hg, hk⟩
      exact ⟨Nat.zero_le p, sec, by rw [Nat.sub_zero]; exact hg, hk⟩

/-- C8: Section-index validity invariant. A document is well-formed (`IniWF`)
when every stored position list is exactly the canonical position list of its
key. `Ini.new` establishes the invariant and every mutation
(`append_section`, `remove_section`, `rename_section`, `set_in`, `remove_in`,
`rename_in`) preserves it; under the invariant, every position stored under a
key is a valid index into the sections list, the positions listed under a key
are exactly the sections whose ASCII-lowercased header key equals that key,
and each key's position list is strictly ascending. -/
theorem C8_section_index_invariant :
    (∀ s, IniWF (Ini.new s)) ∧
    (∀ d k, IniWF d → IniWF (d.append_section k).1) ∧
    (∀ d k, IniWF d → IniWF (d.remove_section k)) ∧
    (∀ d a b, IniWF d → IniWF (d.rename_section a b)) ∧
    (∀ d sk pk v, IniWF d → IniWF (d.set_in sk pk v)) ∧
    (∀ d sk pk, IniWF d → IniWF (d.remove_in sk pk)) ∧
    (∀ d sk a b, IniWF d → IniWF (d.rename_in sk a b)) ∧
    (∀ d k ps, IniWF d → index_get d.section_index k = some ps →
      (∀ p ∈ ps, p < d.sections.length) ∧
      (∀ p, p ∈ ps ↔ ∃ sec, d.sections.get? p = some sec ∧
        ascii_lower (ConcreteSection.key d.source sec) = k) ∧
      List.Pairwise (· < ·) ps) :=
  ⟨WF_new, WF_append, fun d k => WF_remove_section d k,
   fun d a b => WF_rename_section d a b,
   fun d sk pk v => WF_set_in d sk pk v,
   fun d sk pk => WF_remove_in d sk pk,
   fun d sk a b => WF_rename_in d sk a b,
   fun d k ps h hg => WF_facets d k ps h hg⟩

theorem C8_witness :
    IniWF ((Ini.new (str "[A]\nX=1\n")).append_section (str "B")).1 :=
  C8_section_index_invariant.2.1 _ _ (C8_section_index_invariant.1 _)
